import Mathlib

/-!
# SUS_2D: grand-canonical Monte Carlo of hard rods on a toroidal lattice

A shallow embedding of `MC.cpp` (class `MC`: constructor, getters, `Add`, `Del`
and the `MCRUN` loop) together with the invariants of the rod bookkeeping.

Conventions of the embedding

* `int` / `long int` fields are `Int`; the `double` counters `nv, nh, av, ah,
  dv, dh` only ever hold integers (they start at 0 and change by `++` / `--`)
  and are `Int` as well.
* `double` quantities that take part in the acceptance test (`z`, `prob`,
  `proba`, `probd`) are exact rationals.
* The statistics `getTho` and `getQ` end in a `double` division whose divisor can
  be zero; their result is a `DVal`, which keeps the outcome of such a division
  (`inf`, `nan`) apart from the finite quotients.
* The `int` product `r*c` whose value `getTho` casts to `double` is a 32-bit
  product (`imul`: the low 32 bits, as the compiled code keeps them). In the
  acceptance thresholds, which are taken over exact arithmetic, the product is
  exact; the other `int` operations (`length-1`, `y+j+1`, `x+i`) are taken
  without overflow.
* `rand()` is deterministic once seeded: every function that calls it receives
  the raw values it would obtain, and the field `calls` of `World` counts how
  many times `rand()` has been called so far.
* C++ `%` is the truncated remainder `Int.tmod`; a remainder by zero and an
  out-of-range `operator[]` are undefined in C++ and make the embedded function
  return `none`.
-/

namespace SUS2D

/-! ## Collaborators declared in headers that are not part of the sources -/

/-- Modelled from the spec: `hardrods.h` is missing. A rod is immutable once
created and records its anchor cell `(x, y)`, its length and its orientation;
`HR rod(x, y, length, o)` builds it and `getX`, `getY`, `getLength` read it. -/
structure HR where
  x : Int
  y : Int
  length : Int
  orientation : Int
deriving DecidableEq, Repr

/-- Modelled from the spec: the getter `HR::getX` of the missing `hardrods.h`. -/
def HR.getX (h : HR) : Int := h.x

/-- Modelled from the spec: the getter `HR::getY` of the missing `hardrods.h`. -/
def HR.getY (h : HR) : Int := h.y

/-- Modelled from the spec: the getter `HR::getLength` of the missing `hardrods.h`. -/
def HR.getLength (h : HR) : Int := h.length

/-- Modelled from the spec: `cells.h` and `square.h` are missing. The lattice
holds one binary occupancy state per cell and no other state; it is the map from
the coordinates `(x, y)` handed to `getSquare` to that bit. -/
abbrev Cells := Int → Int → Bool

/-- Modelled from the spec: the constructor `Cells s(c, r)` of the missing
`cells.h`; a freshly constructed lattice has all cells empty. -/
def Cells.fresh (_c _r : Int) : Cells := fun _ _ => false

/-- Modelled from the spec: `s.getSquare(x, y).isOccupied()` of the missing
`cells.h` / `square.h`, the occupancy bit of the cell. -/
def Cells.isOccupied (s : Cells) (x y : Int) : Bool := s x y

/-- Modelled from the spec: `s.getSquare(x, y).isEmpty()` of the missing
`cells.h` / `square.h`; occupancy is binary, so empty is not occupied. -/
def Cells.isEmpty (s : Cells) (x y : Int) : Bool := !(s x y)

/-- Modelled from the spec: `s.getSquare(x, y).setStatus(b)` of the missing
`cells.h` / `square.h` (`setStatus(1)` occupies the cell, `setStatus(0)` empties
it); only the addressed cell changes. -/
def Cells.setStatus (s : Cells) (x y : Int) (b : Bool) : Cells :=
  fun x1 y1 => if x1 = x ∧ y1 = y then b else s x1 y1

/-! ## The engine state -/

/-- The C++ remainder `a % b` on `int` (truncated towards zero). -/
def cmod (a b : Int) : Int := Int.tmod a b

/-- Data members of `class MC` (`MC.h`). -/
structure MC where
  VRodlist : List HR
  HRodlist : List HR
  r : Int
  c : Int
  length : Int
  step : Int
  z : ℚ
  nh : Int
  nv : Int
  dh : Int
  dv : Int
  ah : Int
  av : Int

/-- The constructor `MC::MC(ST, LEN, C, R, Z)`. -/
def MC.new (ST LEN C R : Int) (Z : ℚ) : MC :=
  { VRodlist := [], HRodlist := [], r := R, c := C, length := LEN, step := ST, z := Z,
    nh := 0, nv := 0, dh := 0, dv := 0, ah := 0, av := 0 }

/-- What a running chain consists of: the engine object, the lattice `s` that
`MCRUN` creates and hands to `Add` / `Del` by reference, and the number of
`rand()` calls made so far. -/
structure World where
  m : MC
  s : Cells
  calls : Nat

/-- The state at the top of `MCRUN` for a freshly constructed engine:
`Cells s(c, r)` is empty and `rand()` has not been called. -/
def World.start (ST LEN C R : Int) (Z : ℚ) : World :=
  { m := MC.new ST LEN C R Z, s := Cells.fresh C R, calls := 0 }

/-! ## `MC::Add` -/

/-- The vertical scan of `Add`: `counter` after
`for (j = 0; j < length-1; j++) if (s.getSquare(x,(y+j+1)%r).isOccupied()) counter++`. -/
def counterV (s : Cells) (x y r length : Int) : Nat :=
  ((List.range (length - 1).toNat).filter
    (fun (j : Nat) => s.isOccupied x (cmod (y + (j : Int) + 1) r))).length

/-- The horizontal scan of `Add`: `counter` after
`for (j = 0; j < length-1; j++) if (s.getSquare((x+1+j)%c,y).isOccupied()) counter++`. -/
def counterH (s : Cells) (x y c length : Int) : Nat :=
  ((List.range (length - 1).toNat).filter
    (fun (j : Nat) => s.isOccupied (cmod (x + 1 + (j : Int)) c) y)).length

/-- The loop `for (i = 0; i < n; i++) s.getSquare(x,(y+i)%r).setStatus(b)`. -/
def setV (s : Cells) (x y r n : Int) (b : Bool) : Cells :=
  (List.range n.toNat).foldl
    (fun (acc : Cells) (i : Nat) => acc.setStatus x (cmod (y + (i : Int)) r) b) s

/-- The loop `for (i = 0; i < n; i++) s.getSquare((x+i)%c,y).setStatus(b)`. -/
def setH (s : Cells) (x y c n : Int) (b : Bool) : Cells :=
  (List.range n.toNat).foldl
    (fun (acc : Cells) (i : Nat) => acc.setStatus (cmod (x + (i : Int)) c) y b) s

/-- The method `MC::Add(s, prob, proba)`. `rx`, `ry`, `ro` are the values of its
three `rand()` calls. `rand()%c` and `rand()%r` are evaluated first and are
undefined for a zero modulus. -/
def Add (w : World) (rx ry ro : Nat) (prob proba : ℚ) : Option World :=
  if w.m.c = 0 ∨ w.m.r = 0 then none
  else
    let x := cmod rx w.m.c
    let y := cmod ry w.m.r
    let o := cmod ro 2
    let w0 : World := { w with calls := w.calls + 3 }
    if w.s.isEmpty x y then
      let rod : HR := HR.mk x y w.m.length o
      if o = 0 then
        if counterV w.s x y w.m.r w.m.length = 0 then
          if prob ≤ proba then
            some { m := { w.m with VRodlist := w.m.VRodlist ++ [rod],
                                   av := w.m.av + 1, nv := w.m.nv + 1 },
                   s := setV w.s x y w.m.r w.m.length true,
                   calls := w.calls + 3 }
          else some w0
        else some w0
      else
        if counterH w.s x y w.m.c w.m.length = 0 then
          if prob ≤ proba then
            some { m := { w.m with HRodlist := w.m.HRodlist ++ [rod],
                                   ah := w.m.ah + 1, nh := w.m.nh + 1 },
                   s := setH w.s x y w.m.c w.m.length true,
                   calls := w.calls + 3 }
          else some w0
        else some w0
    else some w0

/-! ## `MC::Del` -/

/-- The method `MC::Del(s, prob, probd, size)`. `ri` is the value of its `rand()`
call, which is made only when `nv + nh > 0`. Indexing a rod list out of range
and a remainder by zero inside the clearing loop are undefined. The parameter
`size` is not used by the body. -/
def Del (w : World) (ri : Nat) (prob probd : ℚ) (_size : Int) : Option World :=
  if w.m.nv + w.m.nh > 0 then
    let indx := cmod ri (w.m.nv + w.m.nh)
    if prob ≤ probd then
      if indx < w.m.nv then
        match w.m.VRodlist[indx.toNat]? with
        | none => none
        | some rod =>
          if 0 < rod.getLength ∧ w.m.r = 0 then none
          else
            some { m := { w.m with VRodlist := w.m.VRodlist.eraseIdx indx.toNat,
                                   nv := w.m.nv - 1, dv := w.m.dv + 1 },
                   s := setV w.s rod.getX rod.getY w.m.r rod.getLength false,
                   calls := w.calls + 1 }
      else
        match w.m.HRodlist[(indx - w.m.nv).toNat]? with
        | none => none
        | some rod =>
          if 0 < rod.getLength ∧ w.m.c = 0 then none
          else
            some { m := { w.m with HRodlist := w.m.HRodlist.eraseIdx (indx - w.m.nv).toNat,
                                   nh := w.m.nh - 1, dh := w.m.dh + 1 },
                   s := setH w.s rod.getX rod.getY w.m.c rod.getLength false,
                   calls := w.calls + 1 }
    else some { w with calls := w.calls + 1 }
  else some w

/-! ## The move part of one `MCRUN` iteration -/

/-- The value `aaccp` of `MCRUN`: `z*double(r*c)/(double(nh+nv+1.0)*double(length))`. -/
def aaccp (m : MC) : ℚ :=
  m.z * ((m.r * m.c : Int) : ℚ) / (((m.nh + m.nv + 1 : Int) : ℚ) * (m.length : ℚ))

/-- The value `daccp` of `MCRUN`: `(double(nh+nv)*double(length))/(z*double(r*c))`. -/
def daccp (m : MC) : ℚ :=
  (((m.nh + m.nv : Int) : ℚ) * (m.length : ℚ)) / (m.z * ((m.r * m.c : Int) : ℚ))

/-- Lines 240 to 268 of `MCRUN`: the draws `addordel` and `prob`, the thresholds
`proba = min(1.0, aaccp)` and `probd = min(1.0, daccp)`, and the call of `Add` or
of `Del` (the latter only when `size != 0`). `rnd k` is the value of the `k`-th
`rand()` call since seeding and `RAND_MAX` the constant of `<cstdlib>`. -/
def MCRUN_move (rnd : Nat → Nat) (RAND_MAX : Nat) (w : World) : Option World :=
  let addordel := cmod (rnd w.calls) 2
  let size := w.m.av + w.m.ah - w.m.dv - w.m.dh
  let prob : ℚ := (rnd (w.calls + 1) : ℚ) / (RAND_MAX : ℚ)
  let proba := min 1 (aaccp w.m)
  let probd := min 1 (daccp w.m)
  let w2 : World := { w with calls := w.calls + 2 }
  if addordel = 0 then
    Add w2 (rnd (w.calls + 2)) (rnd (w.calls + 3)) (rnd (w.calls + 4)) prob proba
  else
    if size ≠ 0 then Del w2 (rnd (w.calls + 2)) prob probd size
    else some w2

/-! ## Getters -/

/-- The value of a `double` division of exact operands: a finite quotient, or for
a zero divisor an infinity (with its sign) or `nan`. -/
inductive DVal where
  | finite (q : ℚ)
  | inf (negative : Bool)
  | nan
deriving DecidableEq

/-- The `double` division `a / b`: `0.0/0.0` is `nan`, a nonzero `a` over `0.0`
is the infinity with the sign of `a`, anything else is the quotient. -/
def ddiv (a b : ℚ) : DVal :=
  if b = 0 then (if a = 0 then DVal.nan else DVal.inf (decide (a < 0)))
  else DVal.finite (a / b)

/-- The value of a 32-bit `int` that holds the low 32 bits of `x` (two's
complement): `x` itself when `-2^31 ≤ x < 2^31`. -/
def wrap32 (x : Int) : Int := (x + 2147483648) % 4294967296 - 2147483648

/-- The product `a*b` of two `int` operands, computed in `int`. When the exact
product does not fit (undefined in C++) the compiled multiplication keeps its
low 32 bits. -/
def imul (a b : Int) : Int := wrap32 (a * b)

/-- The getter `MC::getTho`: `double(length*(av+ah-dv-dh))/double(r*c)`. The
numerator is a product of an `int` with a `double`, computed in `double`; the
divisor is the `int` product `r*c`, cast to `double` after the multiplication. -/
def getTho (m : MC) : DVal :=
  ddiv ((m.length * (m.av + m.ah - m.dv - m.dh) : Int) : ℚ) ((imul m.r m.c : Int) : ℚ)

/-- The getter `MC::getQ`: `(nv - nh)/(nv + nh)`, a division of doubles. -/
def getQ (m : MC) : DVal :=
  ddiv ((m.nv - m.nh : Int) : ℚ) ((m.nv + m.nh : Int) : ℚ)

/-- The getter `MC::getNh`. -/
def getNh (m : MC) : Int := m.nh

/-- The getter `MC::getNv`. -/
def getNv (m : MC) : Int := m.nv

/-! ## The `MCRUN` loop -/

/-- The C++ quotient `a / b` on `long int` (truncated towards zero). -/
def cdiv (a b : Int) : Int := Int.tdiv a b

/-- One iteration of the `while (i<step)` loop of `MCRUN`: the move, then the
sampling test `i%(step/10000) == 0`, whose remainder is undefined when
`step/10000` is zero. The values `Q`, `AD`, `tho` and the text written when the
test succeeds do not act on the engine or the lattice and are left out, and with
them the loop counter `i`. -/
def MCRUN_step (rnd : Nat → Nat) (RAND_MAX : Nat) (w : World) : Option World :=
  match MCRUN_move rnd RAND_MAX w with
  | none => none
  | some w1 => if cdiv w.m.step 10000 = 0 then none else some w1

/-- The next `n` iterations of the loop of `MCRUN`. -/
def MCRUN_iter (rnd : Nat → Nat) (RAND_MAX : Nat) : Nat → World → Option World
  | 0, w => some w
  | n + 1, w =>
    match MCRUN_step rnd RAND_MAX w with
    | none => none
    | some w1 => MCRUN_iter rnd RAND_MAX n w1

/-- The method `MC::MCRUN`: a fresh lattice `Cells s(c, r)`, the generator seeded
(`rnd` is the sequence it then produces), and the loop `i = 0; while (i<step)`
with `i++` first in its body, which makes `step` iterations (none for
`step ≤ 0`). The result is the engine and the lattice when the loop is left;
writing `dataplot.dat` is left out. -/
def MCRUN (rnd : Nat → Nat) (RAND_MAX : Nat) (m : MC) : Option World :=
  MCRUN_iter rnd RAND_MAX m.step.toNat { m := m, s := Cells.fresh m.c m.r, calls := 0 }

/-! ## Vocabulary of the properties -/

/-- The span of a vertical rod on a lattice with `r` rows: `getLength()` cells
from the anchor, advancing in `y` modulo `r`. -/
def vspan (r : Int) (rod : HR) : List (Int × Int) :=
  (List.range rod.getLength.toNat).map
    (fun (i : Nat) => (rod.getX, cmod (rod.getY + (i : Int)) r))

/-- The span of a horizontal rod on a lattice with `c` columns: `getLength()`
cells from the anchor, advancing in `x` modulo `c`. -/
def hspan (c : Int) (rod : HR) : List (Int × Int) :=
  (List.range rod.getLength.toNat).map
    (fun (i : Nat) => (cmod (rod.getX + (i : Int)) c, rod.getY))

/-- The spans of all stored rods, vertical list first, then horizontal list
(the order of the combined addressing). -/
def spans (m : MC) : List (List (Int × Int)) :=
  m.VRodlist.map (vspan m.r) ++ m.HRodlist.map (hspan m.c)

/-- Cell `(x, y)` lies in the span of a stored rod. -/
def covered (m : MC) (x y : Int) : Prop :=
  (∃ rod ∈ m.VRodlist, (x, y) ∈ vspan m.r rod) ∨ (∃ rod ∈ m.HRodlist, (x, y) ∈ hspan m.c rod)

/-- Writing the status `b` into every cell of a list of cells. -/
def setCells (s : Cells) (ps : List (Int × Int)) (b : Bool) : Cells :=
  ps.foldl (fun acc p => acc.setStatus p.1 p.2 b) s

/-- Replaying the stored placements (anchor and orientation of every rod, with
the engine's rod length) onto a freshly constructed lattice of the same
dimensions, with the marking loops of `Add`. -/
def replay (m : MC) : Cells :=
  m.HRodlist.foldl (fun s rod => setH s rod.getX rod.getY m.c m.length true)
    (m.VRodlist.foldl (fun s rod => setV s rod.getX rod.getY m.r m.length true)
      (Cells.fresh m.c m.r))

/-- The cells of a `c` by `r` lattice: `0 ≤ x < c`, `0 ≤ y < r`. -/
def lattice (c r : Int) : Finset (Int × Int) := Finset.Ico 0 c ×ˢ Finset.Ico 0 r

/-- The number of occupied cells of the `c` by `r` lattice. -/
def occupiedCount (s : Cells) (c r : Int) : Nat :=
  ((lattice c r).filter (fun p => s p.1 p.2 = true)).card

/-- The sum of `getLength()` over a list of rods. -/
def sumLength (l : List HR) : Int := (l.map HR.getLength).sum

/-- The anchor `(x, y)` and the next `length - 1` cells along orientation `o`
(with wraparound) are all empty: what `Add` tests before the acceptance draw. -/
def spanFree (w : World) (x y o : Int) : Prop :=
  w.s x y = false ∧
    ∀ j : Nat, (j : Int) < w.m.length - 1 →
      (if o = 0 then w.s x (cmod (y + (j : Int) + 1) w.m.r)
       else w.s (cmod (x + 1 + (j : Int)) w.m.c) y) = false

/-- The states reachable from a freshly constructed engine with its empty
lattice by calls of `Add` and `Del` with arbitrary draws, acceptance draws and
thresholds, interleaved with any number of further `rand()` calls. `Add` draws
its anchor in `[0, c) × [0, r)`, which needs `0 < c` and `0 < r`. -/
inductive Reachable : World → Prop
  | start (ST LEN C R : Int) (Z : ℚ) : Reachable (World.start ST LEN C R Z)
  | draw {w : World} (n : Nat) : Reachable w → Reachable { w with calls := w.calls + n }
  | add {w w' : World} (rx ry ro : Nat) (prob proba : ℚ) :
      Reachable w → 0 < w.m.c → 0 < w.m.r → Add w rx ry ro prob proba = some w' → Reachable w'
  | del {w w' : World} (ri : Nat) (prob probd : ℚ) (size : Int) :
      Reachable w → Del w ri prob probd size = some w' → Reachable w'

/-- The states reachable from a freshly constructed engine by iterations of the
`MCRUN` loop (their move part), for a seeded `rand()` sequence `rnd`. -/
inductive ReachableRun (rnd : Nat → Nat) (RAND_MAX : Nat) : World → Prop
  | start (ST LEN C R : Int) (Z : ℚ) : ReachableRun rnd RAND_MAX (World.start ST LEN C R Z)
  | move {w w' : World} :
      ReachableRun rnd RAND_MAX w → MCRUN_move rnd RAND_MAX w = some w' →
      ReachableRun rnd RAND_MAX w'

/-- The bookkeeping invariant of the engine. -/
structure Inv (w : World) : Prop where
  nv_eq : w.m.nv = w.m.VRodlist.length
  nh_eq : w.m.nh = w.m.HRodlist.length
  av_dv : w.m.av - w.m.dv = w.m.nv
  ah_dh : w.m.ah - w.m.dh = w.m.nh
  dv_nonneg : 0 ≤ w.m.dv
  dh_nonneg : 0 ≤ w.m.dh
  vrods : ∀ rod ∈ w.m.VRodlist, rod.length = w.m.length ∧ rod.orientation = 0 ∧
    0 ≤ rod.x ∧ rod.x < w.m.c ∧ 0 ≤ rod.y ∧ rod.y < w.m.r
  hrods : ∀ rod ∈ w.m.HRodlist, rod.length = w.m.length ∧ rod.orientation = 1 ∧
    0 ≤ rod.x ∧ rod.x < w.m.c ∧ 0 ≤ rod.y ∧ rod.y < w.m.r
  occ : ∀ x y, w.s x y = true ↔ covered w.m x y
  disj : (spans w.m).Pairwise List.Disjoint
  count : 0 < w.m.c → 0 < w.m.r → 1 ≤ w.m.length → w.m.length ≤ min w.m.r w.m.c →
    (occupiedCount w.s w.m.c w.m.r : Int) = w.m.length * (w.m.nv + w.m.nh)

/-- A sequence of `Add` attempts, each with its own draws `(rx, ry, ro)`,
acceptance draw and threshold. -/
def AddMany (w : World) : List (Nat × Nat × Nat × ℚ × ℚ) → Option World
  | [] => some w
  | d :: ds =>
    match Add w d.1 d.2.1 d.2.2.1 d.2.2.2.1 d.2.2.2.2 with
    | none => none
    | some w1 => AddMany w1 ds

/-- A fresh 4 by 4 engine with rods of length 2 and activity 1. -/
def demo0 : World := World.start 100000 2 4 4 1

/-- The state `demo0` after an accepted `Add` of a vertical rod anchored at (0, 0). -/
def demo1 : World :=
  { m := { demo0.m with VRodlist := [⟨0, 0, 2, 0⟩], av := 1, nv := 1 },
    s := setV demo0.s 0 0 4 2 true, calls := 3 }

/-- The state `demo1` after an accepted `Add` of a horizontal rod anchored at (1, 0). -/
def demo2 : World :=
  { m := { demo1.m with HRodlist := [⟨1, 0, 2, 1⟩], ah := 1, nh := 1 },
    s := setH demo1.s 1 0 4 2 true, calls := 6 }

/-- A fresh engine for single-site rods on a 65536 by 65536 lattice, whose number
of cells is 2^32. -/
def demoWide : World := World.start 0 1 65536 65536 1

/-- A fresh engine for single-site rods on a 46341 by 46341 lattice, whose number
of cells, 2147488281, exceeds 2^31 - 1. -/
def demoBig0 : World := World.start 100000 1 46341 46341 1

/-- The state `demoBig0` after an accepted `Add` of a rod anchored at (0, 0). -/
def demoBig1 : World :=
  { m := { demoBig0.m with VRodlist := [⟨0, 0, 1, 0⟩], av := 1, nv := 1 },
    s := setV demoBig0.s 0 0 46341 1 true, calls := 3 }

/-! ## Basic facts about the lattice operations -/

theorem cmod_eq_emod {a b : Int} (ha : 0 ≤ a) (hb : 0 < b) : cmod a b = a % b :=
  Int.tmod_eq_emod ha (le_of_lt hb)

theorem cmod_nonneg {a : Int} (b : Int) (ha : 0 ≤ a) : 0 ≤ cmod a b :=
  Int.tmod_nonneg b ha

theorem cmod_lt {b : Int} (a : Int) (hb : 0 < b) : cmod a b < b :=
  Int.tmod_lt_of_pos a hb

theorem cmod_self_of_lt {a b : Int} (ha : 0 ≤ a) (hab : a < b) : cmod a b = a := by
  rw [cmod_eq_emod ha (lt_of_le_of_lt ha hab)]
  exact Int.emod_eq_of_lt ha hab

theorem setStatus_apply (s : Cells) (x y : Int) (b : Bool) (x1 y1 : Int) :
    s.setStatus x y b x1 y1 = if (x1, y1) = (x, y) then b else s x1 y1 := by
  simp [Cells.setStatus, Prod.ext_iff]

theorem setCells_apply (ps : List (Int × Int)) (s : Cells) (b : Bool) (x y : Int) :
    setCells s ps b x y = if (x, y) ∈ ps then b else s x y := by
  induction ps generalizing s with
  | nil => simp [setCells]
  | cons p ps ih =>
    have h : setCells s (p :: ps) b = setCells (s.setStatus p.1 p.2 b) ps b := rfl
    rw [h, ih, setStatus_apply]
    by_cases h1 : (x, y) ∈ ps
    · simp [h1]
    · by_cases h2 : (x, y) = p
      · simp [h2]
      · have h3 : ¬ (x, y) = (p.1, p.2) := h2
        simp [h1, h2, h3]

theorem setV_eq_setCells (s : Cells) (x y r n : Int) (o : Int) (b : Bool) :
    setV s x y r n b = setCells s (vspan r ⟨x, y, n, o⟩) b := by
  simp [setV, setCells, vspan, List.foldl_map, HR.getX, HR.getY, HR.getLength]

theorem setH_eq_setCells (s : Cells) (x y c n : Int) (o : Int) (b : Bool) :
    setH s x y c n b = setCells s (hspan c ⟨x, y, n, o⟩) b := by
  simp [setH, setCells, hspan, List.foldl_map, HR.getX, HR.getY, HR.getLength]


/-! ## Case analysis of `Add` -/

theorem counterV_eq_zero (s : Cells) (x y r len : Int) :
    counterV s x y r len = 0 ↔
      ∀ j : Nat, (j : Int) < len - 1 → s x (cmod (y + (j : Int) + 1) r) = false := by
  simp only [counterV, List.length_eq_zero, List.filter_eq_nil_iff, List.mem_range,
    Cells.isOccupied, Bool.not_eq_true, Int.lt_toNat]

theorem counterH_eq_zero (s : Cells) (x y c len : Int) :
    counterH s x y c len = 0 ↔
      ∀ j : Nat, (j : Int) < len - 1 → s (cmod (x + 1 + (j : Int)) c) y = false := by
  simp only [counterH, List.length_eq_zero, List.filter_eq_nil_iff, List.mem_range,
    Cells.isOccupied, Bool.not_eq_true, Int.lt_toNat]

theorem spanFree_vert (w : World) (x y : Int) :
    spanFree w x y 0 ↔ (w.s.isEmpty x y = true ∧ counterV w.s x y w.m.r w.m.length = 0) := by
  simp [spanFree, counterV_eq_zero, Cells.isEmpty]

theorem spanFree_horiz (w : World) (x y o : Int) (ho : o ≠ 0) :
    spanFree w x y o ↔ (w.s.isEmpty x y = true ∧ counterH w.s x y w.m.c w.m.length = 0) := by
  simp [spanFree, counterH_eq_zero, Cells.isEmpty, ho]

theorem Add_vert (w : World) (rx ry ro : Nat) (prob proba : ℚ)
    (hc : w.m.c ≠ 0) (hr : w.m.r ≠ 0) (ho : cmod ro 2 = 0)
    (hfree : spanFree w (cmod rx w.m.c) (cmod ry w.m.r) 0) (hp : prob ≤ proba) :
    Add w rx ry ro prob proba =
      some { m := { w.m with
                    VRodlist := w.m.VRodlist ++ [⟨cmod rx w.m.c, cmod ry w.m.r, w.m.length, 0⟩],
                    av := w.m.av + 1, nv := w.m.nv + 1 },
             s := setV w.s (cmod rx w.m.c) (cmod ry w.m.r) w.m.r w.m.length true,
             calls := w.calls + 3 } := by
  rw [spanFree_vert] at hfree
  simp [Add, hc, hr, ho, hfree.1, hfree.2, hp]

theorem Add_horiz (w : World) (rx ry ro : Nat) (prob proba : ℚ)
    (hc : w.m.c ≠ 0) (hr : w.m.r ≠ 0) (ho : cmod ro 2 ≠ 0)
    (hfree : spanFree w (cmod rx w.m.c) (cmod ry w.m.r) (cmod ro 2)) (hp : prob ≤ proba) :
    Add w rx ry ro prob proba =
      some { m := { w.m with
                    HRodlist := w.m.HRodlist ++
                      [⟨cmod rx w.m.c, cmod ry w.m.r, w.m.length, cmod ro 2⟩],
                    ah := w.m.ah + 1, nh := w.m.nh + 1 },
             s := setH w.s (cmod rx w.m.c) (cmod ry w.m.r) w.m.c w.m.length true,
             calls := w.calls + 3 } := by
  rw [spanFree_horiz _ _ _ _ ho] at hfree
  simp [Add, hc, hr, ho, hfree.1, hfree.2, hp]

theorem Add_noop (w : World) (rx ry ro : Nat) (prob proba : ℚ)
    (hc : w.m.c ≠ 0) (hr : w.m.r ≠ 0)
    (h : ¬ (spanFree w (cmod rx w.m.c) (cmod ry w.m.r) (cmod ro 2) ∧ prob ≤ proba)) :
    Add w rx ry ro prob proba = some { w with calls := w.calls + 3 } := by
  by_cases ho : cmod ro 2 = 0
  · rw [ho, spanFree_vert] at h
    simp only [Add, hc, hr, ho, or_self, if_false, if_true]
    by_cases h1 : w.s.isEmpty (cmod rx w.m.c) (cmod ry w.m.r) = true
    · by_cases h2 : counterV w.s (cmod rx w.m.c) (cmod ry w.m.r) w.m.r w.m.length = 0
      · have h3 : ¬ prob ≤ proba := fun h3 => h ⟨⟨h1, h2⟩, h3⟩
        simp [h1, h2, h3]
      · simp [h1, h2]
    · simp [h1]
  · rw [spanFree_horiz _ _ _ _ ho] at h
    simp only [Add, hc, hr, ho, or_self, if_false]
    by_cases h1 : w.s.isEmpty (cmod rx w.m.c) (cmod ry w.m.r) = true
    · by_cases h2 : counterH w.s (cmod rx w.m.c) (cmod ry w.m.r) w.m.c w.m.length = 0
      · have h3 : ¬ prob ≤ proba := fun h3 => h ⟨⟨h1, h2⟩, h3⟩
        simp [h1, h2, h3]
      · simp [h1, h2]
    · simp [h1]


/-! ## Spans -/

theorem mem_vspan (r : Int) (rod : HR) (p : Int × Int) :
    p ∈ vspan r rod ↔
      ∃ i : Nat, (i : Int) < rod.length ∧ p = (rod.x, cmod (rod.y + (i : Int)) r) := by
  simp only [vspan, List.mem_map, List.mem_range, Int.lt_toNat, HR.getX, HR.getY, HR.getLength]
  constructor
  · rintro ⟨i, hi, rfl⟩
    exact ⟨i, hi, rfl⟩
  · rintro ⟨i, hi, rfl⟩
    exact ⟨i, hi, rfl⟩

theorem mem_hspan (c : Int) (rod : HR) (p : Int × Int) :
    p ∈ hspan c rod ↔
      ∃ i : Nat, (i : Int) < rod.length ∧ p = (cmod (rod.x + (i : Int)) c, rod.y) := by
  simp only [hspan, List.mem_map, List.mem_range, Int.lt_toNat, HR.getX, HR.getY, HR.getLength]
  constructor
  · rintro ⟨i, hi, rfl⟩
    exact ⟨i, hi, rfl⟩
  · rintro ⟨i, hi, rfl⟩
    exact ⟨i, hi, rfl⟩

theorem free_vspan (w : World) (x y o : Int) (hy0 : 0 ≤ y) (hy : y < w.m.r)
    (h : spanFree w x y 0) :
    ∀ p ∈ vspan w.m.r ⟨x, y, w.m.length, o⟩, w.s p.1 p.2 = false := by
  intro p hp
  rw [mem_vspan] at hp
  obtain ⟨i, hi, rfl⟩ := hp
  cases i with
  | zero =>
    have h0 : cmod y w.m.r = y := cmod_self_of_lt hy0 hy
    simp [h0, h.1]
  | succ j =>
    have hj : (j : Int) < w.m.length - 1 := by
      have : ((j + 1 : Nat) : Int) < w.m.length := hi
      push_cast at this
      omega
    have h2 := h.2 j hj
    simp only [if_true] at h2
    have e : y + ((j + 1 : Nat) : Int) = y + (j : Int) + 1 := by push_cast; ring
    show w.s x (cmod (y + ((j + 1 : Nat) : Int)) w.m.r) = false
    rw [e]
    exact h2

theorem free_hspan (w : World) (x y o : Int) (ho : o ≠ 0) (hx0 : 0 ≤ x) (hx : x < w.m.c)
    (h : spanFree w x y o) :
    ∀ p ∈ hspan w.m.c ⟨x, y, w.m.length, o⟩, w.s p.1 p.2 = false := by
  intro p hp
  rw [mem_hspan] at hp
  obtain ⟨i, hi, rfl⟩ := hp
  cases i with
  | zero =>
    have h0 : cmod x w.m.c = x := cmod_self_of_lt hx0 hx
    simp [h0, h.1]
  | succ j =>
    have hj : (j : Int) < w.m.length - 1 := by
      have : ((j + 1 : Nat) : Int) < w.m.length := hi
      push_cast at this
      omega
    have h2 := h.2 j hj
    simp only [ho, if_false] at h2
    have e : x + ((j + 1 : Nat) : Int) = x + 1 + (j : Int) := by push_cast; ring
    show w.s (cmod (x + ((j + 1 : Nat) : Int)) w.m.c) y = false
    rw [e]
    exact h2

theorem emod_small {a r : Int} (ha : 0 ≤ a) (h2 : a < 2 * r) :
    a % r = if a < r then a else a - r := by
  split
  · next h => exact Int.emod_eq_of_lt ha h
  · next h =>
    rw [← Int.emod_sub_cancel a r]
    exact Int.emod_eq_of_lt (by omega) (by omega)

theorem cmod_shift {y r : Int} (i : Nat) (hy0 : 0 ≤ y) (hy : y < r) (hi : (i : Int) < r) :
    cmod (y + (i : Int)) r = if y + (i : Int) < r then y + (i : Int) else y + (i : Int) - r := by
  rw [cmod_eq_emod (by omega) (by omega)]
  exact emod_small (by omega) (by omega)

theorem vspan_nodup (r : Int) (rod : HR) (hy0 : 0 ≤ rod.y) (hy : rod.y < r)
    (hl : rod.length ≤ r) : (vspan r rod).Nodup := by
  unfold vspan
  refine List.Nodup.map_on ?_ (List.nodup_range _)
  intro i hi j hj hij
  simp only [List.mem_range, Int.lt_toNat, HR.getLength] at hi hj
  simp only [Prod.mk.injEq, true_and, HR.getY] at hij
  rw [cmod_shift i hy0 hy (by omega), cmod_shift j hy0 hy (by omega)] at hij
  split_ifs at hij <;> omega

theorem hspan_nodup (c : Int) (rod : HR) (hx0 : 0 ≤ rod.x) (hx : rod.x < c)
    (hl : rod.length ≤ c) : (hspan c rod).Nodup := by
  unfold hspan
  refine List.Nodup.map_on ?_ (List.nodup_range _)
  intro i hi j hj hij
  simp only [List.mem_range, Int.lt_toNat, HR.getLength] at hi hj
  simp only [Prod.mk.injEq, and_true, HR.getX] at hij
  rw [cmod_shift i hx0 hx (by omega), cmod_shift j hx0 hx (by omega)] at hij
  split_ifs at hij <;> omega

theorem mem_lattice (c r : Int) (p : Int × Int) :
    p ∈ lattice c r ↔ (0 ≤ p.1 ∧ p.1 < c) ∧ (0 ≤ p.2 ∧ p.2 < r) := by
  simp [lattice, Finset.mem_product, Finset.mem_Ico]

theorem vspan_subset_lattice (c r : Int) (rod : HR) (hx0 : 0 ≤ rod.x) (hx : rod.x < c)
    (hy0 : 0 ≤ rod.y) (hy : rod.y < r) : ∀ p ∈ vspan r rod, p ∈ lattice c r := by
  intro p hp
  rw [mem_vspan] at hp
  obtain ⟨i, _, rfl⟩ := hp
  rw [mem_lattice]
  exact ⟨⟨hx0, hx⟩, cmod_nonneg _ (by omega), cmod_lt _ (by omega)⟩

theorem hspan_subset_lattice (c r : Int) (rod : HR) (hx0 : 0 ≤ rod.x) (hx : rod.x < c)
    (hy0 : 0 ≤ rod.y) (hy : rod.y < r) : ∀ p ∈ hspan c rod, p ∈ lattice c r := by
  intro p hp
  rw [mem_hspan] at hp
  obtain ⟨i, _, rfl⟩ := hp
  rw [mem_lattice]
  exact ⟨⟨cmod_nonneg _ (by omega), cmod_lt _ (by omega)⟩, hy0, hy⟩

theorem length_vspan (r : Int) (rod : HR) : ((vspan r rod).length : Int) = max rod.length 0 := by
  simp [vspan, HR.getLength, Int.toNat_eq_max]

theorem length_hspan (c : Int) (rod : HR) : ((hspan c rod).length : Int) = max rod.length 0 := by
  simp [hspan, HR.getLength, Int.toNat_eq_max]

/-! ## Counting occupied cells -/

theorem occupiedCount_set_true (s : Cells) (c r : Int) (ps : List (Int × Int))
    (hnd : ps.Nodup) (hsub : ∀ p ∈ ps, p ∈ lattice c r)
    (hfree : ∀ p ∈ ps, s p.1 p.2 = false) :
    occupiedCount (setCells s ps true) c r = occupiedCount s c r + ps.length := by
  unfold occupiedCount
  have e : (lattice c r).filter (fun p => setCells s ps true p.1 p.2 = true)
      = (lattice c r).filter (fun p => s p.1 p.2 = true) ∪ ps.toFinset := by
    ext p
    simp only [Finset.mem_filter, Finset.mem_union, List.mem_toFinset, setCells_apply]
    by_cases hp : p ∈ ps
    · have : (p.1, p.2) ∈ ps := hp
      simp [this, hsub p hp, hp]
    · have : ¬ (p.1, p.2) ∈ ps := hp
      simp [this, hp]
  rw [e, Finset.card_union_of_disjoint, List.toFinset_card_of_nodup hnd]
  rw [Finset.disjoint_left]
  intro p hp hq
  simp only [Finset.mem_filter] at hp
  rw [List.mem_toFinset] at hq
  rw [hfree p hq] at hp
  exact absurd hp.2 (by simp)

theorem occupiedCount_set_false (s : Cells) (c r : Int) (ps : List (Int × Int))
    (hnd : ps.Nodup) (hsub : ∀ p ∈ ps, p ∈ lattice c r)
    (hocc : ∀ p ∈ ps, s p.1 p.2 = true) :
    occupiedCount (setCells s ps false) c r + ps.length = occupiedCount s c r := by
  unfold occupiedCount
  have e : (lattice c r).filter (fun p => setCells s ps false p.1 p.2 = true)
      = (lattice c r).filter (fun p => s p.1 p.2 = true) \ ps.toFinset := by
    ext p
    simp only [Finset.mem_filter, Finset.mem_sdiff, List.mem_toFinset, setCells_apply]
    by_cases hp : p ∈ ps
    · have : (p.1, p.2) ∈ ps := hp
      simp [this, hp]
    · have : ¬ (p.1, p.2) ∈ ps := hp
      simp [this, hp]
  have hss : ps.toFinset ⊆ (lattice c r).filter (fun p => s p.1 p.2 = true) := by
    intro p hp
    rw [List.mem_toFinset] at hp
    simp only [Finset.mem_filter]
    exact ⟨hsub p hp, hocc p hp⟩
  rw [e, Finset.card_sdiff hss, List.toFinset_card_of_nodup hnd]
  have := Finset.card_le_card hss
  rw [List.toFinset_card_of_nodup hnd] at this
  omega

theorem sumLength_eq (l : List HR) (n : Int) (h : ∀ rod ∈ l, rod.length = n) :
    sumLength l = n * l.length := by
  induction l with
  | nil => simp [sumLength]
  | cons a l ih =>
    have h1 := h a (List.mem_cons_self _ _)
    have h2 := ih (fun rod hr => h rod (List.mem_cons_of_mem _ hr))
    simp only [sumLength, List.map_cons, List.sum_cons, List.length_cons, HR.getLength] at h2 ⊢
    rw [h2, h1]
    push_cast
    ring


/-! ## The invariant is established by the constructor and kept by `Add` -/

theorem Inv_start (ST LEN C R : Int) (Z : ℚ) : Inv (World.start ST LEN C R Z) where
  nv_eq := by simp [World.start, MC.new]
  nh_eq := by simp [World.start, MC.new]
  av_dv := by simp [World.start, MC.new]
  ah_dh := by simp [World.start, MC.new]
  dv_nonneg := by simp [World.start, MC.new]
  dh_nonneg := by simp [World.start, MC.new]
  vrods := by simp [World.start, MC.new]
  hrods := by simp [World.start, MC.new]
  occ := by
    intro x y
    simp [World.start, MC.new, Cells.fresh, covered]
  disj := by simp [World.start, MC.new, spans]
  count := by
    intro _ _ _ _
    simp [World.start, MC.new, Cells.fresh, occupiedCount]

theorem Inv_calls (w : World) (k : Nat) (h : Inv w) : Inv { w with calls := k } :=
  ⟨h.nv_eq, h.nh_eq, h.av_dv, h.ah_dh, h.dv_nonneg, h.dh_nonneg, h.vrods, h.hrods, h.occ,
    h.disj, h.count⟩

theorem covered_of_mem_spans (m : MC) (sp : List (Int × Int)) (hsp : sp ∈ spans m)
    (p : Int × Int) (hp : p ∈ sp) : covered m p.1 p.2 := by
  simp only [spans, List.mem_append, List.mem_map] at hsp
  rcases hsp with ⟨v, hv, rfl⟩ | ⟨h, hh, rfl⟩
  · exact Or.inl ⟨v, hv, hp⟩
  · exact Or.inr ⟨h, hh, hp⟩

theorem disjoint_of_free (w : World) (hI : Inv w) (ps : List (Int × Int))
    (hfree : ∀ p ∈ ps, w.s p.1 p.2 = false) : ∀ sp ∈ spans w.m, List.Disjoint sp ps := by
  intro sp hsp p hp1 hp2
  have h1 := hfree p hp2
  have h2 := (hI.occ p.1 p.2).2 (covered_of_mem_spans w.m sp hsp p hp1)
  rw [h2] at h1
  exact absurd h1 (by simp)

theorem Inv_place_vert (w : World) (hI : Inv w) (x y : Int) (k : Nat)
    (hx0 : 0 ≤ x) (hx : x < w.m.c) (hy0 : 0 ≤ y) (hy : y < w.m.r)
    (hfree : ∀ p ∈ vspan w.m.r ⟨x, y, w.m.length, 0⟩, w.s p.1 p.2 = false) :
    Inv { m := { w.m with VRodlist := w.m.VRodlist ++ [⟨x, y, w.m.length, 0⟩],
                          av := w.m.av + 1, nv := w.m.nv + 1 },
          s := setV w.s x y w.m.r w.m.length true, calls := k } := by
  have hnew := disjoint_of_free w hI _ hfree
  refine
    { nv_eq := ?_, nh_eq := hI.nh_eq, av_dv := ?_, ah_dh := hI.ah_dh, dv_nonneg := hI.dv_nonneg,
      dh_nonneg := hI.dh_nonneg, vrods := ?_, hrods := hI.hrods, occ := ?_, disj := ?_,
      count := ?_ }
  · simp only [List.length_append, List.length_singleton]
    have := hI.nv_eq
    push_cast
    omega
  · have := hI.av_dv
    show w.m.av + 1 - w.m.dv = w.m.nv + 1
    omega
  · intro rod hrod
    simp only [List.mem_append, List.mem_singleton] at hrod
    rcases hrod with h | rfl
    · exact hI.vrods rod h
    · exact ⟨rfl, rfl, hx0, hx, hy0, hy⟩
  · intro x1 y1
    show setV w.s x y w.m.r w.m.length true x1 y1 = true ↔ _
    rw [setV_eq_setCells _ _ _ _ _ 0, setCells_apply]
    by_cases hm : (x1, y1) ∈ vspan w.m.r ⟨x, y, w.m.length, 0⟩
    · simp only [hm, if_true, true_iff]
      exact Or.inl ⟨_, List.mem_append_right _ (List.mem_singleton_self _), hm⟩
    · simp only [hm, if_false]
      rw [hI.occ]
      constructor
      · rintro (⟨v, hv, hp⟩ | ⟨h, hh, hp⟩)
        · exact Or.inl ⟨v, List.mem_append_left _ hv, hp⟩
        · exact Or.inr ⟨h, hh, hp⟩
      · rintro (⟨v, hv, hp⟩ | ⟨h, hh, hp⟩)
        · simp only [List.mem_append, List.mem_singleton] at hv
          rcases hv with hv | rfl
          · exact Or.inl ⟨v, hv, hp⟩
          · exact absurd hp hm
        · exact Or.inr ⟨h, hh, hp⟩
  · show (List.map (vspan w.m.r) (w.m.VRodlist ++ [⟨x, y, w.m.length, 0⟩]) ++
      List.map (hspan w.m.c) w.m.HRodlist).Pairwise List.Disjoint
    simp only [List.map_append, List.map_cons, List.map_nil, List.append_assoc,
      List.singleton_append]
    rw [List.pairwise_middle (fun h => List.Disjoint.symm h), List.pairwise_cons]
    exact ⟨fun sp hsp => (hnew sp hsp).symm, hI.disj⟩
  · intro (hc : 0 < w.m.c) (hr : 0 < w.m.r) (h1 : 1 ≤ w.m.length)
      (hle : w.m.length ≤ min w.m.r w.m.c)
    have hcnt := hI.count hc hr h1 hle
    show ((occupiedCount (setV w.s x y w.m.r w.m.length true) w.m.c w.m.r : Nat) : Int)
      = w.m.length * (w.m.nv + 1 + w.m.nh)
    have hlr : w.m.length ≤ w.m.r := le_trans hle (min_le_left _ _)
    rw [setV_eq_setCells _ _ _ _ _ 0,
      occupiedCount_set_true _ _ _ _ (vspan_nodup _ _ hy0 hy hlr)
        (vspan_subset_lattice _ _ _ hx0 hx hy0 hy) hfree]
    push_cast
    rw [hcnt, length_vspan]
    have : max w.m.length 0 = w.m.length := max_eq_left (by omega)
    show _ + max w.m.length 0 = _
    rw [this]
    ring

theorem Inv_place_horiz (w : World) (hI : Inv w) (x y : Int) (k : Nat)
    (hx0 : 0 ≤ x) (hx : x < w.m.c) (hy0 : 0 ≤ y) (hy : y < w.m.r)
    (hfree : ∀ p ∈ hspan w.m.c ⟨x, y, w.m.length, 1⟩, w.s p.1 p.2 = false) :
    Inv { m := { w.m with HRodlist := w.m.HRodlist ++ [⟨x, y, w.m.length, 1⟩],
                          ah := w.m.ah + 1, nh := w.m.nh + 1 },
          s := setH w.s x y w.m.c w.m.length true, calls := k } := by
  have hnew := disjoint_of_free w hI _ hfree
  refine
    { nv_eq := hI.nv_eq, nh_eq := ?_, av_dv := hI.av_dv, ah_dh := ?_, dv_nonneg := hI.dv_nonneg,
      dh_nonneg := hI.dh_nonneg, vrods := hI.vrods, hrods := ?_, occ := ?_, disj := ?_,
      count := ?_ }
  · simp only [List.length_append, List.length_singleton]
    have := hI.nh_eq
    push_cast
    omega
  · have := hI.ah_dh
    show w.m.ah + 1 - w.m.dh = w.m.nh + 1
    omega
  · intro rod hrod
    simp only [List.mem_append, List.mem_singleton] at hrod
    rcases hrod with h | rfl
    · exact hI.hrods rod h
    · exact ⟨rfl, rfl, hx0, hx, hy0, hy⟩
  · intro x1 y1
    show setH w.s x y w.m.c w.m.length true x1 y1 = true ↔ _
    rw [setH_eq_setCells _ _ _ _ _ 1, setCells_apply]
    by_cases hm : (x1, y1) ∈ hspan w.m.c ⟨x, y, w.m.length, 1⟩
    · simp only [hm, if_true, true_iff]
      exact Or.inr ⟨_, List.mem_append_right _ (List.mem_singleton_self _), hm⟩
    · simp only [hm, if_false]
      rw [hI.occ]
      constructor
      · rintro (⟨v, hv, hp⟩ | ⟨h, hh, hp⟩)
        · exact Or.inl ⟨v, hv, hp⟩
        · exact Or.inr ⟨h, List.mem_append_left _ hh, hp⟩
      · rintro (⟨v, hv, hp⟩ | ⟨h, hh, hp⟩)
        · exact Or.inl ⟨v, hv, hp⟩
        · simp only [List.mem_append, List.mem_singleton] at hh
          rcases hh with hh | rfl
          · exact Or.inr ⟨h, hh, hp⟩
          · exact absurd hp hm
  · show (List.map (vspan w.m.r) w.m.VRodlist ++
      List.map (hspan w.m.c) (w.m.HRodlist ++ [⟨x, y, w.m.length, 1⟩])).Pairwise List.Disjoint
    simp only [List.map_append, List.map_cons, List.map_nil, ← List.append_assoc]
    rw [List.pairwise_append]
    refine ⟨hI.disj, List.pairwise_singleton _ _, ?_⟩
    intro sp hsp b hb
    rw [List.mem_singleton] at hb
    rw [hb]
    exact hnew sp hsp
  · intro (hc : 0 < w.m.c) (hr : 0 < w.m.r) (h1 : 1 ≤ w.m.length)
      (hle : w.m.length ≤ min w.m.r w.m.c)
    have hcnt := hI.count hc hr h1 hle
    show ((occupiedCount (setH w.s x y w.m.c w.m.length true) w.m.c w.m.r : Nat) : Int)
      = w.m.length * (w.m.nv + (w.m.nh + 1))
    have hlc : w.m.length ≤ w.m.c := le_trans hle (min_le_right _ _)
    rw [setH_eq_setCells _ _ _ _ _ 1,
      occupiedCount_set_true _ _ _ _ (hspan_nodup _ _ hx0 hx hlc)
        (hspan_subset_lattice _ _ _ hx0 hx hy0 hy) hfree]
    push_cast
    rw [hcnt, length_hspan]
    have : max w.m.length 0 = w.m.length := max_eq_left (by omega)
    show _ + max w.m.length 0 = _
    rw [this]
    ring


theorem cmod_two (n : Nat) : cmod n 2 = 0 ∨ cmod n 2 = 1 := by
  rw [cmod_eq_emod (Int.ofNat_nonneg n) (by decide)]
  exact Int.emod_two_eq _

theorem Inv_Add (w w' : World) (rx ry ro : Nat) (prob proba : ℚ) (hI : Inv w)
    (hc : 0 < w.m.c) (hr : 0 < w.m.r) (h : Add w rx ry ro prob proba = some w') : Inv w' := by
  have hc0 : w.m.c ≠ 0 := ne_of_gt hc
  have hr0 : w.m.r ≠ 0 := ne_of_gt hr
  have hx0 : 0 ≤ cmod rx w.m.c := cmod_nonneg _ (Int.ofNat_nonneg rx)
  have hx : cmod rx w.m.c < w.m.c := cmod_lt _ hc
  have hy0 : 0 ≤ cmod ry w.m.r := cmod_nonneg _ (Int.ofNat_nonneg ry)
  have hy : cmod ry w.m.r < w.m.r := cmod_lt _ hr
  by_cases hacc : spanFree w (cmod rx w.m.c) (cmod ry w.m.r) (cmod ro 2) ∧ prob ≤ proba
  · rcases cmod_two ro with ho | ho
    · have hfree := hacc.1
      rw [ho] at hfree
      rw [Add_vert w rx ry ro prob proba hc0 hr0 ho hfree hacc.2] at h
      cases h
      exact Inv_place_vert w hI _ _ _ hx0 hx hy0 hy (free_vspan w _ _ 0 hy0 hy hfree)
    · have ho0 : cmod ro 2 ≠ 0 := by rw [ho]; decide
      rw [Add_horiz w rx ry ro prob proba hc0 hr0 ho0 hacc.1 hacc.2] at h
      cases h
      have hfree := hacc.1
      rw [ho] at hfree ⊢
      exact Inv_place_horiz w hI _ _ _ hx0 hx hy0 hy
        (free_hspan w _ _ 1 (by decide) hx0 hx hfree)
  · rw [Add_noop w rx ry ro prob proba hc0 hr0 hacc] at h
    cases h
    exact Inv_calls w _ hI

/-! ## Case analysis of `Del`, and the invariant is kept by `Del` -/

theorem Del_empty (w : World) (ri : Nat) (prob probd : ℚ) (size : Int)
    (h : ¬ 0 < w.m.nv + w.m.nh) : Del w ri prob probd size = some w := by
  have h1 : ¬ w.m.nv + w.m.nh > 0 := h
  simp [Del, h1]

theorem Del_reject (w : World) (ri : Nat) (prob probd : ℚ) (size : Int)
    (h : 0 < w.m.nv + w.m.nh) (hp : ¬ prob ≤ probd) :
    Del w ri prob probd size = some { w with calls := w.calls + 1 } := by
  have h1 : w.m.nv + w.m.nh > 0 := h
  simp [Del, h1, hp]

theorem Del_vert (w : World) (hI : Inv w) (ri : Nat) (prob probd : ℚ) (size : Int)
    (h : 0 < w.m.nv + w.m.nh) (hp : prob ≤ probd)
    (hlt : cmod ri (w.m.nv + w.m.nh) < w.m.nv) :
    ∃ rod, w.m.VRodlist[(cmod ri (w.m.nv + w.m.nh)).toNat]? = some rod ∧
      Del w ri prob probd size =
        some { m := { w.m with
                      VRodlist := w.m.VRodlist.eraseIdx (cmod ri (w.m.nv + w.m.nh)).toNat,
                      nv := w.m.nv - 1, dv := w.m.dv + 1 },
               s := setV w.s rod.getX rod.getY w.m.r rod.getLength false,
               calls := w.calls + 1 } := by
  have h1 : w.m.nv + w.m.nh > 0 := h
  have h0 : 0 ≤ cmod ri (w.m.nv + w.m.nh) := cmod_nonneg _ (Int.ofNat_nonneg ri)
  have hi : (cmod ri (w.m.nv + w.m.nh)).toNat < w.m.VRodlist.length := by
    have := hI.nv_eq
    omega
  refine ⟨w.m.VRodlist[(cmod ri (w.m.nv + w.m.nh)).toNat], List.getElem?_eq_getElem hi, ?_⟩
  have hmem := hI.vrods _ (List.getElem_mem hi)
  have hr : w.m.r ≠ 0 := by omega
  simp [Del, h1, hp, hlt, List.getElem?_eq_getElem hi, hr]

theorem Del_horiz (w : World) (hI : Inv w) (ri : Nat) (prob probd : ℚ) (size : Int)
    (h : 0 < w.m.nv + w.m.nh) (hp : prob ≤ probd)
    (hge : ¬ cmod ri (w.m.nv + w.m.nh) < w.m.nv) :
    ∃ rod, w.m.HRodlist[(cmod ri (w.m.nv + w.m.nh) - w.m.nv).toNat]? = some rod ∧
      Del w ri prob probd size =
        some { m := { w.m with
                      HRodlist :=
                        w.m.HRodlist.eraseIdx (cmod ri (w.m.nv + w.m.nh) - w.m.nv).toNat,
                      nh := w.m.nh - 1, dh := w.m.dh + 1 },
               s := setH w.s rod.getX rod.getY w.m.c rod.getLength false,
               calls := w.calls + 1 } := by
  have h1 : w.m.nv + w.m.nh > 0 := h
  have hlt : cmod ri (w.m.nv + w.m.nh) < w.m.nv + w.m.nh := cmod_lt _ h
  have hi : (cmod ri (w.m.nv + w.m.nh) - w.m.nv).toNat < w.m.HRodlist.length := by
    have := hI.nh_eq
    omega
  refine ⟨w.m.HRodlist[(cmod ri (w.m.nv + w.m.nh) - w.m.nv).toNat],
    List.getElem?_eq_getElem hi, ?_⟩
  have hmem := hI.hrods _ (List.getElem_mem hi)
  have hc : w.m.c ≠ 0 := by omega
  simp [Del, h1, hp, hge, List.getElem?_eq_getElem hi, hc]

theorem disjoint_of_mem_eraseIdx {α β : Type} (f : α → List β) (l : List α)
    (hp : (l.map f).Pairwise List.Disjoint) (i : Nat) (hi : i < l.length) (a : α)
    (ha : a ∈ l.eraseIdx i) : List.Disjoint (f l[i]) (f a) := by
  rw [List.pairwise_map, List.pairwise_iff_getElem] at hp
  rw [List.mem_eraseIdx_iff_getElem] at ha
  obtain ⟨j, hj, hne, rfl⟩ := ha
  rcases Nat.lt_or_gt_of_ne hne with h | h
  · exact (hp j i hj hi h).symm
  · exact hp i j hi hj h

theorem mem_eraseIdx_of_ne {α : Type} (l : List α) (i : Nat) (hi : i < l.length) (a : α)
    (ha : a ∈ l) (hne : a ≠ l[i]) : a ∈ l.eraseIdx i := by
  rw [List.mem_eraseIdx_iff_getElem]
  obtain ⟨j, hj, rfl⟩ := List.getElem_of_mem ha
  refine ⟨j, hj, ?_, rfl⟩
  rintro rfl
  exact hne rfl

theorem Inv_remove_vert (w : World) (hI : Inv w) (i : Nat) (rod : HR) (k : Nat)
    (hrod : w.m.VRodlist[i]? = some rod) :
    Inv { m := { w.m with VRodlist := w.m.VRodlist.eraseIdx i,
                          nv := w.m.nv - 1, dv := w.m.dv + 1 },
          s := setV w.s rod.getX rod.getY w.m.r rod.getLength false, calls := k } := by
  obtain ⟨hi, hget⟩ := List.getElem?_eq_some.1 hrod
  have hmem : rod ∈ w.m.VRodlist := hget ▸ List.getElem_mem hi
  obtain ⟨hlen, -, hx0, hx, hy0, hy⟩ := hI.vrods rod hmem
  have hs : setV w.s rod.getX rod.getY w.m.r rod.getLength false
      = setCells w.s (vspan w.m.r rod) false := setV_eq_setCells _ _ _ _ _ rod.orientation _
  have hdisj := hI.disj
  unfold spans at hdisj
  rw [List.pairwise_append] at hdisj
  obtain ⟨hdV, -, hdVH⟩ := hdisj
  have hocc : ∀ p ∈ vspan w.m.r rod, w.s p.1 p.2 = true :=
    fun p hp => (hI.occ p.1 p.2).2 (Or.inl ⟨rod, hmem, hp⟩)
  refine
    { nv_eq := ?_, nh_eq := hI.nh_eq, av_dv := ?_, ah_dh := hI.ah_dh, dv_nonneg := ?_,
      dh_nonneg := hI.dh_nonneg, vrods := ?_, hrods := hI.hrods, occ := ?_, disj := ?_,
      count := ?_ }
  · show w.m.nv - 1 = ((w.m.VRodlist.eraseIdx i).length : Int)
    rw [List.length_eraseIdx_of_lt hi]
    have := hI.nv_eq
    omega
  · have := hI.av_dv
    show w.m.av - (w.m.dv + 1) = w.m.nv - 1
    omega
  · have := hI.dv_nonneg
    show 0 ≤ w.m.dv + 1
    omega
  · intro v hv
    exact hI.vrods v (List.mem_of_mem_eraseIdx hv)
  · intro x1 y1
    show setV w.s rod.getX rod.getY w.m.r rod.getLength false x1 y1 = true ↔ _
    rw [hs, setCells_apply]
    by_cases hm : (x1, y1) ∈ vspan w.m.r rod
    · simp only [hm, if_true, Bool.false_eq_true, false_iff]
      rintro (⟨v, hv, hp⟩ | ⟨h, hh, hp⟩)
      · have hd := disjoint_of_mem_eraseIdx (vspan w.m.r) w.m.VRodlist hdV i hi v hv
        rw [hget] at hd
        exact hd hm hp
      · exact hdVH _ (List.mem_map_of_mem _ hmem) _ (List.mem_map_of_mem _ hh) hm hp
    · simp only [hm, if_false]
      rw [hI.occ]
      constructor
      · rintro (⟨v, hv, hp⟩ | ⟨h, hh, hp⟩)
        · refine Or.inl ⟨v, mem_eraseIdx_of_ne _ i hi v hv ?_, hp⟩
          rintro rfl
          rw [hget] at hp
          exact hm hp
        · exact Or.inr ⟨h, hh, hp⟩
      · rintro (⟨v, hv, hp⟩ | ⟨h, hh, hp⟩)
        · exact Or.inl ⟨v, List.mem_of_mem_eraseIdx hv, hp⟩
        · exact Or.inr ⟨h, hh, hp⟩
  · exact hI.disj.sublist
      (List.Sublist.append ((List.eraseIdx_sublist _ _).map _) (List.Sublist.refl _))
  · intro (hc : 0 < w.m.c) (hr : 0 < w.m.r) (h1 : 1 ≤ w.m.length)
      (hle : w.m.length ≤ min w.m.r w.m.c)
    have hcnt := hI.count hc hr h1 hle
    show ((occupiedCount (setV w.s rod.getX rod.getY w.m.r rod.getLength false) w.m.c w.m.r
      : Nat) : Int) = w.m.length * (w.m.nv - 1 + w.m.nh)
    have hlr : rod.length ≤ w.m.r := by
      rw [hlen]
      exact le_trans hle (min_le_left _ _)
    have key := occupiedCount_set_false w.s w.m.c w.m.r _ (vspan_nodup _ _ hy0 hy hlr)
      (vspan_subset_lattice _ _ _ hx0 hx hy0 hy) hocc
    have hl := length_vspan w.m.r rod
    rw [hlen, max_eq_left (by omega : (0 : Int) ≤ w.m.length)] at hl
    rw [hs]
    have key2 : ((occupiedCount (setCells w.s (vspan w.m.r rod) false) w.m.c w.m.r : Nat) : Int)
        + ((vspan w.m.r rod).length : Int) = (occupiedCount w.s w.m.c w.m.r : Int) := by
      exact_mod_cast key
    rw [hl, hcnt] at key2
    linarith

theorem Inv_remove_horiz (w : World) (hI : Inv w) (i : Nat) (rod : HR) (k : Nat)
    (hrod : w.m.HRodlist[i]? = some rod) :
    Inv { m := { w.m with HRodlist := w.m.HRodlist.eraseIdx i,
                          nh := w.m.nh - 1, dh := w.m.dh + 1 },
          s := setH w.s rod.getX rod.getY w.m.c rod.getLength false, calls := k } := by
  obtain ⟨hi, hget⟩ := List.getElem?_eq_some.1 hrod
  have hmem : rod ∈ w.m.HRodlist := hget ▸ List.getElem_mem hi
  obtain ⟨hlen, -, hx0, hx, hy0, hy⟩ := hI.hrods rod hmem
  have hs : setH w.s rod.getX rod.getY w.m.c rod.getLength false
      = setCells w.s (hspan w.m.c rod) false := setH_eq_setCells _ _ _ _ _ rod.orientation _
  have hdisj := hI.disj
  unfold spans at hdisj
  rw [List.pairwise_append] at hdisj
  obtain ⟨-, hdH, hdVH⟩ := hdisj
  have hocc : ∀ p ∈ hspan w.m.c rod, w.s p.1 p.2 = true :=
    fun p hp => (hI.occ p.1 p.2).2 (Or.inr ⟨rod, hmem, hp⟩)
  refine
    { nv_eq := hI.nv_eq, nh_eq := ?_, av_dv := hI.av_dv, ah_dh := ?_, dv_nonneg := hI.dv_nonneg,
      dh_nonneg := ?_, vrods := hI.vrods, hrods := ?_, occ := ?_, disj := ?_,
      count := ?_ }
  · show w.m.nh - 1 = ((w.m.HRodlist.eraseIdx i).length : Int)
    rw [List.length_eraseIdx_of_lt hi]
    have := hI.nh_eq
    omega
  · have := hI.ah_dh
    show w.m.ah - (w.m.dh + 1) = w.m.nh - 1
    omega
  · have := hI.dh_nonneg
    show 0 ≤ w.m.dh + 1
    omega
  · intro v hv
    exact hI.hrods v (List.mem_of_mem_eraseIdx hv)
  · intro x1 y1
    show setH w.s rod.getX rod.getY w.m.c rod.getLength false x1 y1 = true ↔ _
    rw [hs, setCells_apply]
    by_cases hm : (x1, y1) ∈ hspan w.m.c rod
    · simp only [hm, if_true, Bool.false_eq_true, false_iff]
      rintro (⟨v, hv, hp⟩ | ⟨h, hh, hp⟩)
      · exact hdVH _ (List.mem_map_of_mem _ hv) _ (List.mem_map_of_mem _ hmem) hp hm
      · have hd := disjoint_of_mem_eraseIdx (hspan w.m.c) w.m.HRodlist hdH i hi h hh
        rw [hget] at hd
        exact hd hm hp
    · simp only [hm, if_false]
      rw [hI.occ]
      constructor
      · rintro (⟨v, hv, hp⟩ | ⟨h, hh, hp⟩)
        · exact Or.inl ⟨v, hv, hp⟩
        · refine Or.inr ⟨h, mem_eraseIdx_of_ne _ i hi h hh ?_, hp⟩
          rintro rfl
          rw [hget] at hp
          exact hm hp
      · rintro (⟨v, hv, hp⟩ | ⟨h, hh, hp⟩)
        · exact Or.inl ⟨v, hv, hp⟩
        · exact Or.inr ⟨h, List.mem_of_mem_eraseIdx hh, hp⟩
  · exact hI.disj.sublist
      (List.Sublist.append (List.Sublist.refl _) ((List.eraseIdx_sublist _ _).map _))
  · intro (hc : 0 < w.m.c) (hr : 0 < w.m.r) (h1 : 1 ≤ w.m.length)
      (hle : w.m.length ≤ min w.m.r w.m.c)
    have hcnt := hI.count hc hr h1 hle
    show ((occupiedCount (setH w.s rod.getX rod.getY w.m.c rod.getLength false) w.m.c w.m.r
      : Nat) : Int) = w.m.length * (w.m.nv + (w.m.nh - 1))
    have hlc : rod.length ≤ w.m.c := by
      rw [hlen]
      exact le_trans hle (min_le_right _ _)
    have key := occupiedCount_set_false w.s w.m.c w.m.r _ (hspan_nodup _ _ hx0 hx hlc)
      (hspan_subset_lattice _ _ _ hx0 hx hy0 hy) hocc
    have hl := length_hspan w.m.c rod
    rw [hlen, max_eq_left (by omega : (0 : Int) ≤ w.m.length)] at hl
    rw [hs]
    have key2 : ((occupiedCount (setCells w.s (hspan w.m.c rod) false) w.m.c w.m.r : Nat) : Int)
        + ((hspan w.m.c rod).length : Int) = (occupiedCount w.s w.m.c w.m.r : Int) := by
      exact_mod_cast key
    rw [hl, hcnt] at key2
    linarith

theorem Inv_Del (w w' : World) (ri : Nat) (prob probd : ℚ) (size : Int) (hI : Inv w)
    (h : Del w ri prob probd size = some w') : Inv w' := by
  by_cases hN : 0 < w.m.nv + w.m.nh
  · by_cases hp : prob ≤ probd
    · by_cases hlt : cmod ri (w.m.nv + w.m.nh) < w.m.nv
      · obtain ⟨rod, hrod, hd⟩ := Del_vert w hI ri prob probd size hN hp hlt
        rw [hd] at h
        cases h
        exact Inv_remove_vert w hI _ rod _ hrod
      · obtain ⟨rod, hrod, hd⟩ := Del_horiz w hI ri prob probd size hN hp hlt
        rw [hd] at h
        cases h
        exact Inv_remove_horiz w hI _ rod _ hrod
    · rw [Del_reject w ri prob probd size hN hp] at h
      cases h
      exact Inv_calls w _ hI
  · rw [Del_empty w ri prob probd size hN] at h
    cases h
    exact hI

theorem Reachable.inv {w : World} (h : Reachable w) : Inv w := by
  induction h with
  | start ST LEN C R Z => exact Inv_start ST LEN C R Z
  | draw n _ ih => exact Inv_calls _ _ ih
  | add rx ry ro prob proba _ hc hr hadd ih => exact Inv_Add _ _ rx ry ro prob proba ih hc hr hadd
  | del ri prob probd size _ hdel ih => exact Inv_Del _ _ ri prob probd size ih hdel


/-! ## The configuration is constant, and `MCRUN` iterations are `Add` / `Del` calls -/

theorem Add_config (w w' : World) (rx ry ro : Nat) (prob proba : ℚ)
    (h : Add w rx ry ro prob proba = some w') :
    w'.m.c = w.m.c ∧ w'.m.r = w.m.r ∧ w'.m.length = w.m.length ∧ w'.m.z = w.m.z ∧
      w'.m.step = w.m.step := by
  unfold Add at h
  simp only at h
  split_ifs at h <;> cases h <;> simp

theorem Del_config (w w' : World) (ri : Nat) (prob probd : ℚ) (size : Int)
    (h : Del w ri prob probd size = some w') :
    w'.m.c = w.m.c ∧ w'.m.r = w.m.r ∧ w'.m.length = w.m.length ∧ w'.m.z = w.m.z ∧
      w'.m.step = w.m.step := by
  unfold Del at h
  simp only at h
  split_ifs at h
  · split at h
    · cases h
    · split_ifs at h
      cases h
      simp
  · split at h
    · cases h
    · split_ifs at h
      cases h
      simp
  · cases h
    simp
  · cases h
    simp

theorem MCRUN_move_config (rnd : Nat → Nat) (RAND_MAX : Nat) (w w' : World)
    (h : MCRUN_move rnd RAND_MAX w = some w') :
    w'.m.c = w.m.c ∧ w'.m.r = w.m.r ∧ w'.m.length = w.m.length ∧ w'.m.z = w.m.z ∧
      w'.m.step = w.m.step := by
  unfold MCRUN_move at h
  simp only at h
  split_ifs at h
  · exact Add_config { w with calls := w.calls + 2 } _ _ _ _ _ _ h
  · exact Del_config { w with calls := w.calls + 2 } _ _ _ _ _ h
  · cases h
    simp

theorem MCRUN_move_add (rnd : Nat → Nat) (RAND_MAX : Nat) (w : World)
    (h : cmod (rnd w.calls) 2 = 0) :
    MCRUN_move rnd RAND_MAX w =
      Add { w with calls := w.calls + 2 } (rnd (w.calls + 2)) (rnd (w.calls + 3))
        (rnd (w.calls + 4)) ((rnd (w.calls + 1) : ℚ) / (RAND_MAX : ℚ)) (min 1 (aaccp w.m)) := by
  simp [MCRUN_move, h]

theorem MCRUN_move_skip (rnd : Nat → Nat) (RAND_MAX : Nat) (w : World)
    (h : cmod (rnd w.calls) 2 ≠ 0) (hsize : w.m.av + w.m.ah - w.m.dv - w.m.dh = 0) :
    MCRUN_move rnd RAND_MAX w = some { w with calls := w.calls + 2 } := by
  simp [MCRUN_move, h, hsize]

theorem ReachableRun.reachable {rnd : Nat → Nat} {RAND_MAX : Nat} {w : World}
    (h : ReachableRun rnd RAND_MAX w) (hc : 0 < w.m.c) (hr : 0 < w.m.r) : Reachable w := by
  induction h with
  | start ST LEN C R Z => exact Reachable.start ST LEN C R Z
  | @move w w' _ hmove ih =>
    obtain ⟨ec, er, -, -, -⟩ := MCRUN_move_config rnd RAND_MAX w w' hmove
    rw [ec] at hc
    rw [er] at hr
    have hw := ih hc hr
    have hw2 : Reachable { w with calls := w.calls + 2 } := Reachable.draw 2 hw
    unfold MCRUN_move at hmove
    simp only at hmove
    split_ifs at hmove
    · exact Reachable.add _ _ _ _ _ hw2 hc hr hmove
    · exact Reachable.del _ _ _ _ hw2 hmove
    · cases hmove
      exact hw2


/-! ## Replaying the stored rods -/

theorem foldl_setV_apply (r len : Int) (l : List HR) (s0 : Cells) (x y : Int) :
    (l.foldl (fun s rod => setV s rod.getX rod.getY r len true) s0) x y = true ↔
      s0 x y = true ∨ ∃ rod ∈ l, (x, y) ∈ vspan r ⟨rod.x, rod.y, len, rod.orientation⟩ := by
  induction l generalizing s0 with
  | nil => simp
  | cons a l ih =>
    rw [List.foldl_cons, ih, setV_eq_setCells _ _ _ _ _ a.orientation, setCells_apply]
    simp only [List.mem_cons, exists_eq_or_imp, HR.getX, HR.getY]
    by_cases hm : (x, y) ∈ vspan r ⟨a.x, a.y, len, a.orientation⟩
    · simp [hm]
    · simp [hm]

theorem foldl_setH_apply (c len : Int) (l : List HR) (s0 : Cells) (x y : Int) :
    (l.foldl (fun s rod => setH s rod.getX rod.getY c len true) s0) x y = true ↔
      s0 x y = true ∨ ∃ rod ∈ l, (x, y) ∈ hspan c ⟨rod.x, rod.y, len, rod.orientation⟩ := by
  induction l generalizing s0 with
  | nil => simp
  | cons a l ih =>
    rw [List.foldl_cons, ih, setH_eq_setCells _ _ _ _ _ a.orientation, setCells_apply]
    simp only [List.mem_cons, exists_eq_or_imp, HR.getX, HR.getY]
    by_cases hm : (x, y) ∈ hspan c ⟨a.x, a.y, len, a.orientation⟩
    · simp [hm]
    · simp [hm]

theorem replay_eq (w : World) (hI : Inv w) : replay w.m = w.s := by
  funext x y
  rw [Bool.eq_iff_iff, hI.occ]
  unfold replay covered
  rw [foldl_setH_apply, foldl_setV_apply]
  have e : ∀ rod : HR, rod.length = w.m.length →
      (⟨rod.x, rod.y, w.m.length, rod.orientation⟩ : HR) = rod := by
    intro rod h
    cases rod
    simp only at h
    subst h
    rfl
  constructor
  · rintro ((h | ⟨v, hv, hp⟩) | ⟨h, hh, hp⟩)
    · simp [Cells.fresh] at h
    · rw [e v (hI.vrods v hv).1] at hp
      exact Or.inl ⟨v, hv, hp⟩
    · rw [e h (hI.hrods h hh).1] at hp
      exact Or.inr ⟨h, hh, hp⟩
  · rintro (⟨v, hv, hp⟩ | ⟨h, hh, hp⟩)
    · refine Or.inl (Or.inr ⟨v, hv, ?_⟩)
      rw [e v (hI.vrods v hv).1]
      exact hp
    · refine Or.inr ⟨h, hh, ?_⟩
      rw [e h (hI.hrods h hh).1]
      exact hp

/-! ## Reachability of the sample states -/

theorem demo0_reachable : Reachable demo0 := Reachable.start 100000 2 4 4 1

theorem demo1_reachable : Reachable demo1 :=
  Reachable.add 0 0 0 0 1 demo0_reachable (by decide) (by decide) rfl

theorem demo2_reachable : Reachable demo2 :=
  Reachable.add 1 0 1 0 1 demo1_reachable (by decide) (by decide) rfl

theorem demo0_spanFree : spanFree demo0 0 0 0 := by
  simp [spanFree, demo0, World.start, Cells.fresh]

theorem demo0_move :
    MCRUN_move (fun _ => 0) 32767 demo0 = some { demo1 with calls := 5 } := by
  have hp : (((0 : Nat) : ℚ) / ((32767 : Nat) : ℚ)) ≤ min 1 (aaccp demo0.m) := by
    norm_num [aaccp, demo0, World.start, MC.new]
  rw [MCRUN_move_add (fun _ => 0) 32767 demo0 rfl]
  exact Add_vert { demo0 with calls := demo0.calls + 2 } 0 0 0 _ _ (by decide) (by decide) rfl
    demo0_spanFree hp

theorem demo1_reachableRun :
    ReachableRun (fun _ => 0) 32767 { demo1 with calls := 5 } :=
  ReachableRun.move (ReachableRun.start 100000 2 4 4 1) demo0_move

/-! ## The claims -/

/-- Claim C1. In every state reachable from the initial state by `Add` / `Del` calls a
lattice cell is occupied if and only if it lies in the span of a rod stored in
`VRodlist` (vertical span) or `HRodlist` (horizontal span), and replaying the
stored rods onto a fresh lattice gives back the same occupancy map. -/
theorem C1_occupied_iff_in_span (w : World) (h : Reachable w) :
    (∀ x y : Int, w.s x y = true ↔
      ((∃ rod ∈ w.m.VRodlist, (x, y) ∈ vspan w.m.r rod) ∨
       (∃ rod ∈ w.m.HRodlist, (x, y) ∈ hspan w.m.c rod))) ∧
    replay w.m = w.s :=
  ⟨h.inv.occ, replay_eq w h.inv⟩

/-- Witness of claim C1 at the sample state `demo2` (one vertical and one horizontal rod). -/
theorem C1_occupied_iff_in_span_witness :
    (∀ x y : Int, demo2.s x y = true ↔
      ((∃ rod ∈ demo2.m.VRodlist, (x, y) ∈ vspan demo2.m.r rod) ∨
       (∃ rod ∈ demo2.m.HRodlist, (x, y) ∈ hspan demo2.m.c rod))) ∧
    replay demo2.m = demo2.s :=
  C1_occupied_iff_in_span demo2 demo2_reachable

/-- Claim C2. No overlap: in every reachable state the spans of the stored rods, listed
vertical rods first and horizontal rods after them, are pairwise disjoint (any
two entries at distinct positions, whatever their orientations). -/
theorem C2_no_overlap (w : World) (h : Reachable w) :
    (w.m.VRodlist.map (vspan w.m.r) ++ w.m.HRodlist.map (hspan w.m.c)).Pairwise List.Disjoint :=
  h.inv.disj

/-- Witness of claim C2 at the sample state `demo2`. -/
theorem C2_no_overlap_witness :
    (demo2.m.VRodlist.map (vspan demo2.m.r) ++
      demo2.m.HRodlist.map (hspan demo2.m.c)).Pairwise List.Disjoint :=
  C2_no_overlap demo2 demo2_reachable

/-- Claim C3. Occupancy consistency: for `r ≥ 1`, `c ≥ 1` and `1 ≤ length ≤ min(r, c)`,
in every state reached by iterations of the `MCRUN` loop the number of occupied
lattice cells equals `length * (nv + nh)` and equals the sum of `getLength()`
over the rods of both lists. -/
theorem C3_occupancy_consistency (rnd : Nat → Nat) (RAND_MAX : Nat) (w : World)
    (h : ReachableRun rnd RAND_MAX w) (hr : 1 ≤ w.m.r) (hc : 1 ≤ w.m.c)
    (hlen : 1 ≤ w.m.length) (hle : w.m.length ≤ min w.m.r w.m.c) :
    (occupiedCount w.s w.m.c w.m.r : Int) = w.m.length * (w.m.nv + w.m.nh) ∧
    (occupiedCount w.s w.m.c w.m.r : Int) = sumLength w.m.VRodlist + sumLength w.m.HRodlist := by
  have hI := (h.reachable hc hr).inv
  have h1 := hI.count hc hr hlen hle
  refine ⟨h1, ?_⟩
  rw [h1, sumLength_eq _ _ (fun rod hrod => (hI.vrods rod hrod).1),
    sumLength_eq _ _ (fun rod hrod => (hI.hrods rod hrod).1), hI.nv_eq, hI.nh_eq]
  ring

/-- Witness of claim C3 at the state reached from `demo0` by one `MCRUN` iteration. -/
theorem C3_occupancy_consistency_witness :
    (occupiedCount demo1.s demo1.m.c demo1.m.r : Int)
      = demo1.m.length * (demo1.m.nv + demo1.m.nh) ∧
    (occupiedCount demo1.s demo1.m.c demo1.m.r : Int)
      = sumLength demo1.m.VRodlist + sumLength demo1.m.HRodlist :=
  C3_occupancy_consistency (fun _ => 0) 32767 { demo1 with calls := 5 } demo1_reachableRun
    (by decide) (by decide) (by decide) (by decide)

/-- Claim C4. Live counts equal registry sizes: after construction and after every
`Add` or `Del` call, `nv` is the number of rods in `VRodlist` and `nh` the
number of rods in `HRodlist`. -/
theorem C4_counts_eq_sizes (w : World) (h : Reachable w) :
    w.m.nv = w.m.VRodlist.length ∧ w.m.nh = w.m.HRodlist.length :=
  ⟨h.inv.nv_eq, h.inv.nh_eq⟩

/-- Witness of claim C4 at the sample state `demo2`. -/
theorem C4_counts_eq_sizes_witness :
    demo2.m.nv = demo2.m.VRodlist.length ∧ demo2.m.nh = demo2.m.HRodlist.length :=
  C4_counts_eq_sizes demo2 demo2_reachable


/-- Claim C5. Accepted `Add`: when the drawn anchor `(x, y)` and the next `length - 1`
cells along the drawn orientation `o` are all empty and `prob ≤ proba`, `Add`
sets exactly the cells of the span to occupied and leaves every other cell as
it was, appends the rod `(x, y, length, o)` at the end of the list matching `o`,
adds 1 to that orientation's live count and addition counter, and leaves the
other list, the other orientation's counters and `dv`, `dh` unchanged. -/
theorem C5_accepted_Add (w : World) (rx ry ro : Nat) (prob proba : ℚ) (x y o : Int)
    (hx : x = cmod rx w.m.c) (hy : y = cmod ry w.m.r) (ho : o = cmod ro 2)
    (hc : 0 < w.m.c) (hr : 0 < w.m.r) (hfree : spanFree w x y o) (hp : prob ≤ proba) :
    ∃ w', Add w rx ry ro prob proba = some w' ∧
      (∀ x1 y1 : Int, w'.s x1 y1 =
        if (x1, y1) ∈ (if o = 0 then vspan w.m.r ⟨x, y, w.m.length, o⟩
                        else hspan w.m.c ⟨x, y, w.m.length, o⟩)
        then true else w.s x1 y1) ∧
      (o = 0 →
        w'.m.VRodlist = w.m.VRodlist ++ [⟨x, y, w.m.length, o⟩] ∧
        w'.m.nv = w.m.nv + 1 ∧ w'.m.av = w.m.av + 1 ∧
        w'.m.HRodlist = w.m.HRodlist ∧ w'.m.nh = w.m.nh ∧ w'.m.ah = w.m.ah) ∧
      (o ≠ 0 →
        w'.m.HRodlist = w.m.HRodlist ++ [⟨x, y, w.m.length, o⟩] ∧
        w'.m.nh = w.m.nh + 1 ∧ w'.m.ah = w.m.ah + 1 ∧
        w'.m.VRodlist = w.m.VRodlist ∧ w'.m.nv = w.m.nv ∧ w'.m.av = w.m.av) ∧
      w'.m.dv = w.m.dv ∧ w'.m.dh = w.m.dh := by
  subst hx hy ho
  by_cases ho : cmod ro 2 = 0
  · have hfree0 := hfree
    rw [ho] at hfree0
    refine ⟨_, Add_vert w rx ry ro prob proba (ne_of_gt hc) (ne_of_gt hr) ho hfree0 hp, ?_, ?_, ?_,
      rfl, rfl⟩
    · intro x1 y1
      rw [ho]
      show setV w.s _ _ w.m.r w.m.length true x1 y1 = _
      rw [setV_eq_setCells _ _ _ _ _ 0, setCells_apply]
      simp
    · intro _
      rw [ho]
      exact ⟨rfl, rfl, rfl, rfl, rfl, rfl⟩
    · intro h
      exact absurd ho h
  · refine ⟨_, Add_horiz w rx ry ro prob proba (ne_of_gt hc) (ne_of_gt hr) ho hfree hp, ?_, ?_, ?_,
      rfl, rfl⟩
    · intro x1 y1
      show setH w.s _ _ w.m.c w.m.length true x1 y1 = _
      rw [setH_eq_setCells _ _ _ _ _ (cmod ro 2), setCells_apply]
      simp [ho]
    · intro h
      exact absurd h ho
    · intro _
      exact ⟨rfl, rfl, rfl, rfl, rfl, rfl⟩

/-- Witness of claim C5: on `demo1` the draws 5, 4, 3 give the anchor (1, 0) and the horizontal orientation, whose span is free. -/
theorem C5_accepted_Add_witness :
    ∃ w', Add demo1 5 4 3 0 1 = some w' ∧
      (∀ x1 y1 : Int, w'.s x1 y1 =
        if (x1, y1) ∈ (if (1 : Int) = 0 then vspan demo1.m.r ⟨1, 0, demo1.m.length, 1⟩
                        else hspan demo1.m.c ⟨1, 0, demo1.m.length, 1⟩)
        then true else demo1.s x1 y1) ∧
      ((1 : Int) = 0 →
        w'.m.VRodlist = demo1.m.VRodlist ++ [⟨1, 0, demo1.m.length, 1⟩] ∧
        w'.m.nv = demo1.m.nv + 1 ∧ w'.m.av = demo1.m.av + 1 ∧
        w'.m.HRodlist = demo1.m.HRodlist ∧ w'.m.nh = demo1.m.nh ∧ w'.m.ah = demo1.m.ah) ∧
      ((1 : Int) ≠ 0 →
        w'.m.HRodlist = demo1.m.HRodlist ++ [⟨1, 0, demo1.m.length, 1⟩] ∧
        w'.m.nh = demo1.m.nh + 1 ∧ w'.m.ah = demo1.m.ah + 1 ∧
        w'.m.VRodlist = demo1.m.VRodlist ∧ w'.m.nv = demo1.m.nv ∧ w'.m.av = demo1.m.av) ∧
      w'.m.dv = demo1.m.dv ∧ w'.m.dh = demo1.m.dh :=
  C5_accepted_Add demo1 5 4 3 0 1 1 0 1 rfl rfl rfl (by decide) (by decide)
    (by
      refine ⟨by decide, ?_⟩
      intro j hj
      have hj0 : j = 0 := by
        have : (j : Int) < 1 := hj
        omega
      subst hj0
      decide)
    (by norm_num)

theorem spanFree_congr (w w' : World) (hm : w'.m = w.m) (hs : w'.s = w.s) (x y o : Int) :
    spanFree w' x y o ↔ spanFree w x y o := by
  unfold spanFree
  rw [hm, hs]

theorem AddMany_blocked (ds : List (Nat × Nat × Nat × ℚ × ℚ)) (w0 w : World)
    (hm : w.m = w0.m) (hs : w.s = w0.s) (hc : 0 < w0.m.c) (hr : 0 < w0.m.r)
    (hfull : ∀ x y o : Int, 0 ≤ x → x < w0.m.c → 0 ≤ y → y < w0.m.r → (o = 0 ∨ o = 1) →
      ¬ spanFree w0 x y o) :
    ∃ w', AddMany w ds = some w' ∧ w'.m = w0.m ∧ w'.s = w0.s := by
  induction ds generalizing w with
  | nil => exact ⟨w, rfl, hm, hs⟩
  | cons d ds ih =>
    have hc1 : 0 < w.m.c := by rw [hm]; exact hc
    have hr1 : 0 < w.m.r := by rw [hm]; exact hr
    have hblk : ¬ (spanFree w (cmod d.1 w.m.c) (cmod d.2.1 w.m.r) (cmod d.2.2.1 2) ∧
        d.2.2.2.1 ≤ d.2.2.2.2) := by
      rintro ⟨hf, -⟩
      rw [spanFree_congr w0 w hm hs, hm] at hf
      exact hfull _ _ _ (cmod_nonneg _ (Int.ofNat_nonneg _)) (cmod_lt _ hc)
        (cmod_nonneg _ (Int.ofNat_nonneg _)) (cmod_lt _ hr) (cmod_two _) hf
    have hadd := Add_noop w d.1 d.2.1 d.2.2.1 d.2.2.2.1 d.2.2.2.2 (ne_of_gt hc1) (ne_of_gt hr1) hblk
    obtain ⟨w', h1, h2, h3⟩ := ih { w with calls := w.calls + 3 } hm hs
    refine ⟨w', ?_, h2, h3⟩
    simp only [AddMany, hadd]
    exact h1

/-- Claim C6. Blocked `Add` is a no-op: if the drawn anchor cell or one of the next
`length - 1` cells along the drawn orientation is occupied, `Add` leaves the
lattice, both rod lists and all six counters (the whole engine object)
unchanged, whatever `prob`, `proba` and the activity are. In particular, when no
anchor and orientation has a free run of `length` cells, no sequence of `Add`
attempts changes the lattice or the engine. -/
theorem C6_blocked_Add_noop (w : World) (hc : 0 < w.m.c) (hr : 0 < w.m.r) :
    (∀ (rx ry ro : Nat) (prob proba : ℚ),
      ¬ spanFree w (cmod rx w.m.c) (cmod ry w.m.r) (cmod ro 2) →
      ∃ w', Add w rx ry ro prob proba = some w' ∧ w'.m = w.m ∧ w'.s = w.s) ∧
    ((∀ x y o : Int, 0 ≤ x → x < w.m.c → 0 ≤ y → y < w.m.r → (o = 0 ∨ o = 1) →
        ¬ spanFree w x y o) →
      ∀ ds : List (Nat × Nat × Nat × ℚ × ℚ),
        ∃ w', AddMany w ds = some w' ∧ w'.m = w.m ∧ w'.s = w.s) := by
  constructor
  · intro rx ry ro prob proba hblk
    exact ⟨_, Add_noop w rx ry ro prob proba (ne_of_gt hc) (ne_of_gt hr) (fun h => hblk h.1),
      rfl, rfl⟩
  · intro hfull ds
    exact AddMany_blocked ds w w rfl rfl hc hr hfull

/-- Witness of claim C6: on `demo1` the anchor (0, 1) drawn by an `Add` is occupied. -/
theorem C6_blocked_Add_noop_witness :
    ∃ w', Add demo1 0 1 0 0 1 = some w' ∧ w'.m = demo1.m ∧ w'.s = demo1.s :=
  (C6_blocked_Add_noop demo1 (by decide) (by decide)).1 0 1 0 0 1
    (by
      intro h
      exact absurd h.1 (by decide))


/-- Claim C7. Accepted `Del` with combined addressing: in a reachable state with
`nv + nh > 0`, the drawn index `indx = rand() % (nv + nh)` lies in
`[0, nv + nh)`; when `prob ≤ probd`, `Del` targets `VRodlist[indx]` if
`indx < nv` and `HRodlist[indx - nv]` otherwise. It empties exactly the cells of
that rod's span (a rod of the engine's length), erases exactly that element
from its list (the others keep their order), subtracts 1 from that
orientation's live count, adds 1 to its deletion counter, and leaves the other
list, the other orientation's counters and `av`, `ah` unchanged. -/
theorem C7_accepted_Del (w : World) (h : Reachable w) (ri : Nat) (prob probd : ℚ) (size : Int)
    (indx : Int) (hindx : indx = cmod ri (w.m.nv + w.m.nh))
    (hN : 0 < w.m.nv + w.m.nh) (hp : prob ≤ probd) :
    (0 ≤ indx ∧ indx < w.m.nv + w.m.nh) ∧
    (indx < w.m.nv →
      ∃ rod w', w.m.VRodlist[indx.toNat]? = some rod ∧ rod.getLength = w.m.length ∧
        Del w ri prob probd size = some w' ∧
        (∀ x1 y1 : Int, w'.s x1 y1 = if (x1, y1) ∈ vspan w.m.r rod then false else w.s x1 y1) ∧
        w'.m.VRodlist = w.m.VRodlist.eraseIdx indx.toNat ∧
        w'.m.nv = w.m.nv - 1 ∧ w'.m.dv = w.m.dv + 1 ∧
        w'.m.HRodlist = w.m.HRodlist ∧ w'.m.nh = w.m.nh ∧ w'.m.dh = w.m.dh ∧
        w'.m.av = w.m.av ∧ w'.m.ah = w.m.ah) ∧
    (¬ indx < w.m.nv →
      ∃ rod w', w.m.HRodlist[(indx - w.m.nv).toNat]? = some rod ∧ rod.getLength = w.m.length ∧
        Del w ri prob probd size = some w' ∧
        (∀ x1 y1 : Int, w'.s x1 y1 = if (x1, y1) ∈ hspan w.m.c rod then false else w.s x1 y1) ∧
        w'.m.HRodlist = w.m.HRodlist.eraseIdx (indx - w.m.nv).toNat ∧
        w'.m.nh = w.m.nh - 1 ∧ w'.m.dh = w.m.dh + 1 ∧
        w'.m.VRodlist = w.m.VRodlist ∧ w'.m.nv = w.m.nv ∧ w'.m.dv = w.m.dv ∧
        w'.m.av = w.m.av ∧ w'.m.ah = w.m.ah) := by
  subst hindx
  have hI := h.inv
  refine ⟨⟨cmod_nonneg _ (Int.ofNat_nonneg ri), cmod_lt _ hN⟩, ?_, ?_⟩
  · intro hlt
    obtain ⟨rod, hrod, hd⟩ := Del_vert w hI ri prob probd size hN hp hlt
    have hmem : rod ∈ w.m.VRodlist := by
      obtain ⟨hi, hget⟩ := List.getElem?_eq_some.1 hrod
      exact hget ▸ List.getElem_mem hi
    refine ⟨rod, _, hrod, (hI.vrods rod hmem).1, hd, ?_, rfl, rfl, rfl, rfl, rfl, rfl, rfl, rfl⟩
    intro x1 y1
    show setV w.s rod.getX rod.getY w.m.r rod.getLength false x1 y1 = _
    rw [setV_eq_setCells _ _ _ _ _ rod.orientation, setCells_apply]
    rfl
  · intro hge
    obtain ⟨rod, hrod, hd⟩ := Del_horiz w hI ri prob probd size hN hp hge
    have hmem : rod ∈ w.m.HRodlist := by
      obtain ⟨hi, hget⟩ := List.getElem?_eq_some.1 hrod
      exact hget ▸ List.getElem_mem hi
    refine ⟨rod, _, hrod, (hI.hrods rod hmem).1, hd, ?_, rfl, rfl, rfl, rfl, rfl, rfl, rfl, rfl⟩
    intro x1 y1
    show setH w.s rod.getX rod.getY w.m.c rod.getLength false x1 y1 = _
    rw [setH_eq_setCells _ _ _ _ _ rod.orientation, setCells_apply]
    rfl

/-- Witness of claim C7: on `demo2` the drawn index 1 equals `nv` and addresses the first horizontal rod. -/
theorem C7_accepted_Del_witness :
    ∃ rod w', demo2.m.HRodlist[((1 : Int) - demo2.m.nv).toNat]? = some rod ∧
        rod.getLength = demo2.m.length ∧
        Del demo2 1 0 1 0 = some w' ∧
        (∀ x1 y1 : Int,
          w'.s x1 y1 = if (x1, y1) ∈ hspan demo2.m.c rod then false else demo2.s x1 y1) ∧
        w'.m.HRodlist = demo2.m.HRodlist.eraseIdx ((1 : Int) - demo2.m.nv).toNat ∧
        w'.m.nh = demo2.m.nh - 1 ∧ w'.m.dh = demo2.m.dh + 1 ∧
        w'.m.VRodlist = demo2.m.VRodlist ∧ w'.m.nv = demo2.m.nv ∧ w'.m.dv = demo2.m.dv ∧
        w'.m.av = demo2.m.av ∧ w'.m.ah = demo2.m.ah :=
  (C7_accepted_Del demo2 demo2_reachable 1 0 1 0 1 rfl (by decide) (by norm_num)).2.2
    (by decide)

/-- Claim C8. Delete on an empty system is a no-op: in a reachable state with
`nv + nh = 0`, an iteration of the `MCRUN` loop that selects deletion leaves the
lattice and the engine object (both rod lists and all six counters) unchanged
and calls `rand()` exactly twice, for `addordel` and for `prob`: no index is
drawn. `Del` itself, if called in such a state, returns the state as it is,
without any `rand()` call, for every `prob` and `probd`. -/
theorem C8_delete_on_empty_noop (w : World) (h : Reachable w) (rnd : Nat → Nat)
    (RAND_MAX : Nat) (hN : w.m.nv + w.m.nh = 0) (hdel : cmod (rnd w.calls) 2 ≠ 0) :
    (∃ w', MCRUN_move rnd RAND_MAX w = some w' ∧ w'.m = w.m ∧ w'.s = w.s ∧
      w'.calls = w.calls + 2) ∧
    (∀ (ri : Nat) (prob probd : ℚ) (size : Int), Del w ri prob probd size = some w) := by
  have hI := h.inv
  constructor
  · have hsize : w.m.av + w.m.ah - w.m.dv - w.m.dh = 0 := by
      have h1 := hI.av_dv
      have h2 := hI.ah_dh
      omega
    exact ⟨_, MCRUN_move_skip rnd RAND_MAX w hdel hsize, rfl, rfl, rfl⟩
  · intro ri prob probd size
    exact Del_empty w ri prob probd size (by omega)

/-- Witness of claim C8 at the fresh state `demo0`, with a `rand()` sequence that selects deletion. -/
theorem C8_delete_on_empty_noop_witness :
    (∃ w', MCRUN_move (fun _ => 1) 32767 demo0 = some w' ∧ w'.m = demo0.m ∧ w'.s = demo0.s ∧
      w'.calls = demo0.calls + 2) ∧
    (∀ (ri : Nat) (prob probd : ℚ) (size : Int), Del demo0 ri prob probd size = some demo0) :=
  C8_delete_on_empty_noop demo0 demo0_reachable (fun _ => 1) 32767 (by decide) (by decide)


theorem wrap32_of_range (x : Int) (hlo : -2147483648 ≤ x) (hhi : x < 2147483648) :
    wrap32 x = x := by
  unfold wrap32
  omega

/-- Where the product `r * c` fits an `int`, `getTho()` is the `double` quotient of
`length * ((av + ah) - (dv + dh))` by `r * c`. -/
theorem getTho_of_range (m : MC) (hlo : -2147483648 ≤ m.r * m.c)
    (hhi : m.r * m.c < 2147483648) :
    getTho m = ddiv ((m.length : ℚ) * (((m.av : ℚ) + (m.ah : ℚ)) - ((m.dv : ℚ) + (m.dh : ℚ))))
      ((m.r : ℚ) * (m.c : ℚ)) := by
  have e1 : ((m.length * (m.av + m.ah - m.dv - m.dh) : Int) : ℚ)
      = (m.length : ℚ) * (((m.av : ℚ) + (m.ah : ℚ)) - ((m.dv : ℚ) + (m.dh : ℚ))) := by
    push_cast
    ring
  have e2 : ((imul m.r m.c : Int) : ℚ) = (m.r : ℚ) * (m.c : ℚ) := by
    unfold imul
    rw [wrap32_of_range _ hlo hhi]
    push_cast
    ring
  unfold getTho
  rw [e1, e2]

theorem imul_demoWide : imul demoWide.m.r demoWide.m.c = 0 := by decide

/-- Claim C13 fails on the code: on a freshly constructed engine with
`r = c = 65536` the `int` product `r*c` is 0, so `getTho()` is the outcome `nan`
of `0.0/0.0`, while `length * ((av + ah) - (dv + dh)) / (r * c)` is the number
`0 / 2^32 = 0`. -/
theorem C13_getTho_overflow :
    getTho demoWide.m = DVal.nan ∧
    ddiv ((demoWide.m.length : ℚ) *
        (((demoWide.m.av : ℚ) + (demoWide.m.ah : ℚ)) -
          ((demoWide.m.dv : ℚ) + (demoWide.m.dh : ℚ))))
      ((demoWide.m.r : ℚ) * (demoWide.m.c : ℚ)) = DVal.finite 0 := by
  constructor
  · unfold getTho
    rw [imul_demoWide]
    simp [ddiv, demoWide, World.start, MC.new]
  · norm_num [ddiv, demoWide, World.start, MC.new]

/-- Counterexample to claim C14 as stated: directly after construction
(`nv + nh = 0`) `getQ()` is the outcome `nan` of the division `0.0/0.0`, not a
number that could serve as a sentinel. -/
theorem C14_counterexample :
    (MC.new 10 2 4 4 1).nv + (MC.new 10 2 4 4 1).nh = 0 ∧
    getQ (MC.new 10 2 4 4 1) = DVal.nan ∧
    ¬ ∃ q : ℚ, getQ (MC.new 10 2 4 4 1) = DVal.finite q := by
  have h : getQ (MC.new 10 2 4 4 1) = DVal.nan := by
    simp [getQ, ddiv, MC.new]
  refine ⟨by decide, h, ?_⟩
  rintro ⟨q, hq⟩
  rw [h] at hq
  cases hq

/-- Claim C14, amended. `getQ()` divides without a guard: when `nv + nh > 0` it
returns `(nv - nh)/(nv + nh)`, and when `nv = nh = 0` (for example directly after
construction) it returns the outcome `nan` of the division `0.0/0.0`. -/
theorem C14_getQ (m : MC) :
    (0 < m.nv + m.nh →
      getQ m = DVal.finite (((m.nv : ℚ) - (m.nh : ℚ)) / ((m.nv : ℚ) + (m.nh : ℚ)))) ∧
    (m.nv = 0 → m.nh = 0 → getQ m = DVal.nan) := by
  constructor
  · intro h
    have h0 : ((m.nv + m.nh : Int) : ℚ) ≠ 0 := by exact_mod_cast ne_of_gt h
    unfold getQ ddiv
    rw [if_neg h0]
    push_cast
    rfl
  · intro h1 h2
    simp [getQ, ddiv, h1, h2]

/-- Witness of claim C14 (amended): one vertical and one horizontal rod in
`demo2`, and no rod in `demo0`. -/
theorem C14_getQ_witness :
    getQ demo2.m = DVal.finite
      (((demo2.m.nv : ℚ) - (demo2.m.nh : ℚ)) / ((demo2.m.nv : ℚ) + (demo2.m.nh : ℚ))) ∧
    getQ demo0.m = DVal.nan :=
  ⟨(C14_getQ demo2.m).1 (by decide), (C14_getQ demo0.m).2 rfl rfl⟩


/-- Counterexample to claim C15 as stated: with `LEN = 5` on a 3 by 3 lattice
(`LEN > R` and `LEN > C`) the constructor yields an engine, and a first `Add`
runs on it and places a rod of length 5. -/
theorem C15_counterexample :
    (5 : Int) > 3 ∧
    (MC.new 10 5 3 3 1).length = 5 ∧ (MC.new 10 5 3 3 1).r = 3 ∧ (MC.new 10 5 3 3 1).c = 3 ∧
    (Add (World.start 10 5 3 3 1) 0 0 0 0 1).map (fun w => (w.m.VRodlist, w.m.nv))
      = some ([⟨0, 0, 5, 0⟩], 1) := by
  refine ⟨by decide, rfl, rfl, rfl, ?_⟩
  rfl

/-- Claim C15, amended. The constructor `MC(ST, LEN, C, R, Z)` validates nothing:
for all parameters, also `R ≤ 0`, `C ≤ 0`, `LEN ≤ 0`, `LEN > R` or `LEN > C`, it
produces the engine that stores them, with both rod lists empty and the six
counters 0. -/
theorem C15_constructor_accepts_all (ST LEN C R : Int) (Z : ℚ) :
    (MC.new ST LEN C R Z).step = ST ∧ (MC.new ST LEN C R Z).length = LEN ∧
    (MC.new ST LEN C R Z).c = C ∧ (MC.new ST LEN C R Z).r = R ∧ (MC.new ST LEN C R Z).z = Z ∧
    (MC.new ST LEN C R Z).VRodlist = [] ∧ (MC.new ST LEN C R Z).HRodlist = [] ∧
    (MC.new ST LEN C R Z).nv = 0 ∧ (MC.new ST LEN C R Z).nh = 0 ∧
    (MC.new ST LEN C R Z).av = 0 ∧ (MC.new ST LEN C R Z).ah = 0 ∧
    (MC.new ST LEN C R Z).dv = 0 ∧ (MC.new ST LEN C R Z).dh = 0 :=
  ⟨rfl, rfl, rfl, rfl, rfl, rfl, rfl, rfl, rfl, rfl, rfl, rfl, rfl⟩

theorem MCRUN_zero_budget (rnd : Nat → Nat) (RAND_MAX : Nat) (LEN C R : Int) (Z : ℚ) :
    MCRUN rnd RAND_MAX (MC.new 0 LEN C R Z) = some (World.start 0 LEN C R Z) := rfl

/-- On a freshly constructed engine with `r, c ≥ 1` whose product fits an `int`,
`getTho()` is 0. -/
theorem getTho_new_of_range (ST LEN C R : Int) (Z : ℚ) (hr : 1 ≤ R) (hc : 1 ≤ C)
    (hhi : R * C < 2147483648) : getTho (MC.new ST LEN C R Z) = DVal.finite 0 := by
  have hpos : 0 < R * C := Int.mul_pos (by omega) (by omega)
  rw [getTho_of_range _ (by show -2147483648 ≤ R * C; omega) hhi]
  have h0 : (R : ℚ) * (C : ℚ) ≠ 0 := by
    have : ((R * C : Int) : ℚ) ≠ 0 := by exact_mod_cast ne_of_gt hpos
    simpa using this
  simp [ddiv, MC.new, h0]

/-- Claim C16 fails on the code: with step budget 0 and `r = c = 65536`,
`length = 1`, `MCRUN` executes no step body (no `rand()` call, the engine as
constructed, `getNv() = 0`, `getNh() = 0`, empty lists, counters 0), but
`getTho()` afterwards is the outcome `nan` of `0.0/0.0`, not 0, because the
`int` product `r*c` is 0. -/
theorem C16_zero_budget_overflow (rnd : Nat → Nat) (RAND_MAX : Nat) :
    ∃ w, MCRUN rnd RAND_MAX (MC.new 0 1 65536 65536 1) = some w ∧
      w.calls = 0 ∧ w.m = MC.new 0 1 65536 65536 1 ∧
      getNv w.m = 0 ∧ getNh w.m = 0 ∧
      w.m.VRodlist = [] ∧ w.m.HRodlist = [] ∧
      w.m.av = 0 ∧ w.m.ah = 0 ∧ w.m.dv = 0 ∧ w.m.dh = 0 ∧
      getTho w.m = DVal.nan ∧ getTho w.m ≠ DVal.finite 0 := by
  have h : getTho demoWide.m = DVal.nan := by
    unfold getTho
    rw [imul_demoWide]
    simp [ddiv, demoWide, World.start, MC.new]
  refine ⟨demoWide, MCRUN_zero_budget rnd RAND_MAX 1 65536 65536 1, rfl, rfl, rfl, rfl, rfl, rfl,
    rfl, rfl, rfl, rfl, h, ?_⟩
  rw [h]
  intro hc
  cases hc

/-- Claim C17. Counter bookkeeping: in every reachable state `nv = av - dv` and
`nh = ah - dh` with all six counters non-negative (integers), so the value
`size = av + ah - dv - dh` that `MCRUN` tests equals `nv + nh`, and `size != 0`
holds exactly when the guard `nv + nh > 0` of `Del` holds. -/
theorem C17_counter_bookkeeping (w : World) (h : Reachable w) :
    w.m.nv = w.m.av - w.m.dv ∧ w.m.nh = w.m.ah - w.m.dh ∧
    0 ≤ w.m.nv ∧ 0 ≤ w.m.nh ∧ 0 ≤ w.m.av ∧ 0 ≤ w.m.ah ∧ 0 ≤ w.m.dv ∧ 0 ≤ w.m.dh ∧
    w.m.av + w.m.ah - w.m.dv - w.m.dh = w.m.nv + w.m.nh ∧
    (w.m.av + w.m.ah - w.m.dv - w.m.dh ≠ 0 ↔ w.m.nv + w.m.nh > 0) := by
  have hI := h.inv
  have h1 := hI.av_dv
  have h2 := hI.ah_dh
  have h3 := hI.dv_nonneg
  have h4 := hI.dh_nonneg
  have h5 := hI.nv_eq
  have h6 := hI.nh_eq
  refine ⟨by omega, by omega, by omega, by omega, by omega, by omega, h3, h4, by omega, ?_⟩
  constructor
  · intro _
    show 0 < w.m.nv + w.m.nh
    omega
  · intro (hpos : 0 < w.m.nv + w.m.nh)
    omega

/-- Witness of claim C17 at the sample state `demo2`. -/
theorem C17_counter_bookkeeping_witness :
    demo2.m.nv = demo2.m.av - demo2.m.dv ∧ demo2.m.nh = demo2.m.ah - demo2.m.dh ∧
    0 ≤ demo2.m.nv ∧ 0 ≤ demo2.m.nh ∧ 0 ≤ demo2.m.av ∧ 0 ≤ demo2.m.ah ∧
    0 ≤ demo2.m.dv ∧ 0 ≤ demo2.m.dh ∧
    demo2.m.av + demo2.m.ah - demo2.m.dv - demo2.m.dh = demo2.m.nv + demo2.m.nh ∧
    (demo2.m.av + demo2.m.ah - demo2.m.dv - demo2.m.dh ≠ 0 ↔ demo2.m.nv + demo2.m.nh > 0) :=
  C17_counter_bookkeeping demo2 demo2_reachable


theorem card_lattice (c r : Int) : (lattice c r).card = c.toNat * r.toNat := by
  simp [lattice, Finset.card_product, Int.card_Ico]

theorem occupiedCount_le (s : Cells) (c r : Int) : occupiedCount s c r ≤ c.toNat * r.toNat := by
  rw [← card_lattice]
  exact Finset.card_filter_le _ _

/-- Capacity bound: with `r, c ≥ 1` and `1 ≤ length ≤ min(r, c)` the invariant
gives `length * (nv + nh) ≤ r * c`. -/
theorem capacity_bound (w : World) (hI : Inv w) (hr : 1 ≤ w.m.r) (hc : 1 ≤ w.m.c)
    (hlen : 1 ≤ w.m.length) (hle : w.m.length ≤ min w.m.r w.m.c) :
    w.m.length * (w.m.nv + w.m.nh) ≤ w.m.r * w.m.c := by
  have hcnt := hI.count hc hr hlen hle
  have h1 := occupiedCount_le w.s w.m.c w.m.r
  have h2 : ((occupiedCount w.s w.m.c w.m.r : Nat) : Int)
      ≤ ((w.m.c.toNat * w.m.r.toNat : Nat) : Int) := by exact_mod_cast h1
  rw [hcnt] at h2
  push_cast at h2
  rw [Int.toNat_of_nonneg (by omega : (0 : Int) ≤ w.m.c),
    Int.toNat_of_nonneg (by omega : (0 : Int) ≤ w.m.r)] at h2
  linarith [mul_comm w.m.c w.m.r]

/-- Where moreover the product `r * c` fits an `int`, the density returned by
`getTho()` is a number in `[0, 1]`. -/
theorem getTho_unit_interval_of_range (w : World) (hI : Inv w) (hr : 1 ≤ w.m.r)
    (hc : 1 ≤ w.m.c) (hlen : 1 ≤ w.m.length) (hle : w.m.length ≤ min w.m.r w.m.c)
    (hhi : w.m.r * w.m.c < 2147483648) :
    ∃ q : ℚ, getTho w.m = DVal.finite q ∧ 0 ≤ q ∧ q ≤ 1 := by
  have hbound := capacity_bound w hI hr hc hlen hle
  have hsize : w.m.av + w.m.ah - w.m.dv - w.m.dh = w.m.nv + w.m.nh := by
    have h1 := hI.av_dv
    have h2 := hI.ah_dh
    omega
  have hpos : 0 < w.m.r * w.m.c := Int.mul_pos (by omega) (by omega)
  have hposq : (0 : ℚ) < ((w.m.r * w.m.c : Int) : ℚ) := by exact_mod_cast hpos
  have hnum0 : 0 ≤ w.m.length * (w.m.nv + w.m.nh) := by
    have h5 := hI.nv_eq
    have h6 := hI.nh_eq
    exact Int.mul_nonneg (by omega) (by omega)
  have hw : imul w.m.r w.m.c = w.m.r * w.m.c := wrap32_of_range _ (by omega) hhi
  refine ⟨((w.m.length * (w.m.av + w.m.ah - w.m.dv - w.m.dh) : Int) : ℚ) /
    ((w.m.r * w.m.c : Int) : ℚ), ?_, ?_, ?_⟩
  · unfold getTho ddiv
    rw [hw, if_neg (ne_of_gt hposq)]
  · rw [hsize]
    exact div_nonneg (by exact_mod_cast hnum0) (le_of_lt hposq)
  · rw [hsize, div_le_one hposq]
    exact_mod_cast hbound

theorem demoBig1_reachable : Reachable demoBig1 :=
  Reachable.add 0 0 0 0 1 (Reachable.start 100000 1 46341 46341 1) (by decide) (by decide) rfl

theorem imul_demoBig1 : imul demoBig1.m.r demoBig1.m.c = -2147479015 := by decide

/-- Claim C18 fails on the code: the capacity bound `length * (nv + nh) ≤ r * c`
holds, but the density returned by `getTho()` leaves `[0, 1]` where the `int`
product `r*c` overflows. On the reachable state with one rod of length 1 on a
46341 by 46341 lattice it is the negative number `1 / (-2147479015)`, and on a
freshly constructed 65536 by 65536 engine it is `nan`. -/
theorem C18_density_overflow :
    (Reachable demoBig1 ∧ 1 ≤ demoBig1.m.r ∧ 1 ≤ demoBig1.m.c ∧ 1 ≤ demoBig1.m.length ∧
      demoBig1.m.length ≤ min demoBig1.m.r demoBig1.m.c ∧
      demoBig1.m.length * (demoBig1.m.nv + demoBig1.m.nh) ≤ demoBig1.m.r * demoBig1.m.c ∧
      getTho demoBig1.m = DVal.finite (1 / (-2147479015)) ∧
      (1 / (-2147479015) : ℚ) < 0) ∧
    (Reachable demoWide ∧ getTho demoWide.m = DVal.nan) := by
  refine ⟨⟨demoBig1_reachable, by decide, by decide, by decide, by decide, by decide, ?_, ?_⟩,
    Reachable.start 0 1 65536 65536 1, ?_⟩
  · unfold getTho
    rw [imul_demoBig1]
    norm_num [ddiv, demoBig1, demoBig0, World.start, MC.new]
  · norm_num
  · unfold getTho
    rw [imul_demoWide]
    simp [ddiv, demoWide, World.start, MC.new]

theorem eraseIdx_concat_length {α : Type} (l : List α) (a : α) :
    (l ++ [a]).eraseIdx l.length = l := by
  rw [List.eraseIdx_append_of_length_le (le_refl _)]
  simp

theorem setCells_undo (s : Cells) (ps : List (Int × Int))
    (hfree : ∀ p ∈ ps, s p.1 p.2 = false) : setCells (setCells s ps true) ps false = s := by
  funext x y
  rw [setCells_apply, setCells_apply]
  by_cases hm : (x, y) ∈ ps
  · simp only [hm, if_true]
    exact (hfree (x, y) hm).symm
  · simp only [hm, if_false]

theorem Del_after_place_vert (w : World) (hI : Inv w) (x y : Int) (k : Nat)
    (hx0 : 0 ≤ x) (hx : x < w.m.c) (hy0 : 0 ≤ y) (hy : y < w.m.r)
    (hfree : ∀ p ∈ vspan w.m.r ⟨x, y, w.m.length, 0⟩, w.s p.1 p.2 = false)
    (ri : Nat) (prob2 probd : ℚ) (size : Int) (hp2 : prob2 ≤ probd)
    (hidx : cmod ri (w.m.nv + 1 + w.m.nh) = w.m.nv) :
    ∃ w2, Del { m := { w.m with VRodlist := w.m.VRodlist ++ [⟨x, y, w.m.length, 0⟩],
                                av := w.m.av + 1, nv := w.m.nv + 1 },
                s := setV w.s x y w.m.r w.m.length true, calls := k } ri prob2 probd size
        = some w2 ∧
      w2.s = w.s ∧ w2.m.VRodlist = w.m.VRodlist ∧ w2.m.HRodlist = w.m.HRodlist ∧
      w2.m.nv = w.m.nv ∧ w2.m.nh = w.m.nh ∧
      w2.m.av = w.m.av + 1 ∧ w2.m.dv = w.m.dv + 1 ∧ w2.m.ah = w.m.ah ∧ w2.m.dh = w.m.dh := by
  have hI1 := Inv_place_vert w hI x y k hx0 hx hy0 hy hfree
  have hnv := hI.nv_eq
  have hnh := hI.nh_eq
  have hN : 0 < w.m.nv + 1 + w.m.nh := by omega
  have hlt : cmod ri (w.m.nv + 1 + w.m.nh) < w.m.nv + 1 := by omega
  obtain ⟨rod, hrod, hd⟩ := Del_vert _ hI1 ri prob2 probd size hN hp2 hlt
  have hi : (cmod ri (w.m.nv + 1 + w.m.nh)).toNat = w.m.VRodlist.length := by
    rw [hidx, hnv]
    exact Int.toNat_ofNat _
  change (w.m.VRodlist ++ [(⟨x, y, w.m.length, 0⟩ : HR)])[
    (cmod ri (w.m.nv + 1 + w.m.nh)).toNat]? = some rod at hrod
  rw [hi, List.getElem?_concat_length] at hrod
  cases hrod
  refine ⟨_, hd, ?_, ?_, rfl, ?_, rfl, rfl, rfl, rfl, rfl⟩
  · show setV (setV w.s x y w.m.r w.m.length true) x y w.m.r w.m.length false = w.s
    rw [setV_eq_setCells _ _ _ _ _ 0, setV_eq_setCells _ _ _ _ _ 0]
    exact setCells_undo _ _ hfree
  · show (w.m.VRodlist ++ [(⟨x, y, w.m.length, 0⟩ : HR)]).eraseIdx
      (cmod ri (w.m.nv + 1 + w.m.nh)).toNat = w.m.VRodlist
    rw [hi]
    exact eraseIdx_concat_length _ _
  · show w.m.nv + 1 - 1 = w.m.nv
    omega

theorem Del_after_place_horiz (w : World) (hI : Inv w) (x y : Int) (k : Nat)
    (hx0 : 0 ≤ x) (hx : x < w.m.c) (hy0 : 0 ≤ y) (hy : y < w.m.r)
    (hfree : ∀ p ∈ hspan w.m.c ⟨x, y, w.m.length, 1⟩, w.s p.1 p.2 = false)
    (ri : Nat) (prob2 probd : ℚ) (size : Int) (hp2 : prob2 ≤ probd)
    (hidx : cmod ri (w.m.nv + (w.m.nh + 1)) = w.m.nv + w.m.nh) :
    ∃ w2, Del { m := { w.m with HRodlist := w.m.HRodlist ++ [⟨x, y, w.m.length, 1⟩],
                                ah := w.m.ah + 1, nh := w.m.nh + 1 },
                s := setH w.s x y w.m.c w.m.length true, calls := k } ri prob2 probd size
        = some w2 ∧
      w2.s = w.s ∧ w2.m.VRodlist = w.m.VRodlist ∧ w2.m.HRodlist = w.m.HRodlist ∧
      w2.m.nv = w.m.nv ∧ w2.m.nh = w.m.nh ∧
      w2.m.ah = w.m.ah + 1 ∧ w2.m.dh = w.m.dh + 1 ∧ w2.m.av = w.m.av ∧ w2.m.dv = w.m.dv := by
  have hI1 := Inv_place_horiz w hI x y k hx0 hx hy0 hy hfree
  have hnv := hI.nv_eq
  have hnh := hI.nh_eq
  have hN : 0 < w.m.nv + (w.m.nh + 1) := by omega
  have hge : ¬ cmod ri (w.m.nv + (w.m.nh + 1)) < w.m.nv := by omega
  obtain ⟨rod, hrod, hd⟩ := Del_horiz _ hI1 ri prob2 probd size hN hp2 hge
  have hi : (cmod ri (w.m.nv + (w.m.nh + 1)) - w.m.nv).toNat = w.m.HRodlist.length := by
    rw [hidx, hnh]
    have : w.m.nv + (w.m.HRodlist.length : Int) - w.m.nv = (w.m.HRodlist.length : Int) := by
      omega
    rw [this]
    exact Int.toNat_ofNat _
  change (w.m.HRodlist ++ [(⟨x, y, w.m.length, 1⟩ : HR)])[
    (cmod ri (w.m.nv + (w.m.nh + 1)) - w.m.nv).toNat]? = some rod at hrod
  rw [hi, List.getElem?_concat_length] at hrod
  cases hrod
  refine ⟨_, hd, ?_, rfl, ?_, rfl, ?_, rfl, rfl, rfl, rfl⟩
  · show setH (setH w.s x y w.m.c w.m.length true) x y w.m.c w.m.length false = w.s
    rw [setH_eq_setCells _ _ _ _ _ 1, setH_eq_setCells _ _ _ _ _ 1]
    exact setCells_undo _ _ hfree
  · show (w.m.HRodlist ++ [(⟨x, y, w.m.length, 1⟩ : HR)]).eraseIdx
      (cmod ri (w.m.nv + (w.m.nh + 1)) - w.m.nv).toNat = w.m.HRodlist
    rw [hi]
    exact eraseIdx_concat_length _ _
  · show w.m.nh + 1 - 1 = w.m.nh
    omega

/-- Claim C19. `Add` then `Del` is the identity on the configuration: from a
reachable state `w`, after an accepted `Add` (free span, `prob ≤ proba`) giving
`w1`, an accepted `Del` whose drawn index addresses the new rod (`nv' - 1` for a
vertical rod, `nv' + nh' - 1` for a horizontal one, the counts being those of
`w1`) returns a state with the lattice, `VRodlist`, `HRodlist`, `nv` and `nh` of
`w`; only the addition counter and the deletion counter of the rod's
orientation have grown, each by 1. -/
theorem C19_add_then_del (w w1 : World) (h : Reachable w) (rx ry ro : Nat) (prob proba : ℚ)
    (ri : Nat) (prob2 probd : ℚ) (size : Int)
    (hc : 0 < w.m.c) (hr : 0 < w.m.r)
    (hfree : spanFree w (cmod rx w.m.c) (cmod ry w.m.r) (cmod ro 2)) (hp : prob ≤ proba)
    (hadd : Add w rx ry ro prob proba = some w1)
    (hp2 : prob2 ≤ probd)
    (hidx : cmod ri (w1.m.nv + w1.m.nh) =
      if cmod ro 2 = 0 then w1.m.nv - 1 else w1.m.nv + w1.m.nh - 1) :
    ∃ w2, Del w1 ri prob2 probd size = some w2 ∧
      w2.s = w.s ∧ w2.m.VRodlist = w.m.VRodlist ∧ w2.m.HRodlist = w.m.HRodlist ∧
      w2.m.nv = w.m.nv ∧ w2.m.nh = w.m.nh ∧
      (cmod ro 2 = 0 →
        w2.m.av = w.m.av + 1 ∧ w2.m.dv = w.m.dv + 1 ∧ w2.m.ah = w.m.ah ∧ w2.m.dh = w.m.dh) ∧
      (cmod ro 2 ≠ 0 →
        w2.m.ah = w.m.ah + 1 ∧ w2.m.dh = w.m.dh + 1 ∧ w2.m.av = w.m.av ∧ w2.m.dv = w.m.dv) := by
  have hI := h.inv
  have hc0 : w.m.c ≠ 0 := ne_of_gt hc
  have hr0 : w.m.r ≠ 0 := ne_of_gt hr
  have hx0 : 0 ≤ cmod rx w.m.c := cmod_nonneg _ (Int.ofNat_nonneg rx)
  have hx : cmod rx w.m.c < w.m.c := cmod_lt _ hc
  have hy0 : 0 ≤ cmod ry w.m.r := cmod_nonneg _ (Int.ofNat_nonneg ry)
  have hy : cmod ry w.m.r < w.m.r := cmod_lt _ hr
  rcases cmod_two ro with ho | ho
  · have hfree0 := hfree
    rw [ho] at hfree0
    rw [Add_vert w rx ry ro prob proba hc0 hr0 ho hfree0 hp] at hadd
    cases hadd
    rw [if_pos ho] at hidx
    have hidx2 : cmod ri (w.m.nv + 1 + w.m.nh) = w.m.nv := by
      have e : cmod ri (w.m.nv + 1 + w.m.nh) = w.m.nv + 1 - 1 := hidx
      omega
    obtain ⟨w2, hd, hs, hV, hH, hnv, hnh, hav, hdv, hah, hdh⟩ :=
      Del_after_place_vert w hI _ _ (w.calls + 3) hx0 hx hy0 hy
        (free_vspan w _ _ 0 hy0 hy hfree0) ri prob2 probd size hp2 hidx2
    refine ⟨w2, hd, hs, hV, hH, hnv, hnh, fun _ => ⟨hav, hdv, hah, hdh⟩, ?_⟩
    intro hne
    exact absurd ho hne
  · have ho0 : cmod ro 2 ≠ 0 := by rw [ho]; decide
    rw [Add_horiz w rx ry ro prob proba hc0 hr0 ho0 hfree hp] at hadd
    cases hadd
    rw [if_neg ho0] at hidx
    have hidx2 : cmod ri (w.m.nv + (w.m.nh + 1)) = w.m.nv + w.m.nh := by
      have e : cmod ri (w.m.nv + (w.m.nh + 1)) = w.m.nv + (w.m.nh + 1) - 1 := hidx
      omega
    have hfree1 := hfree
    rw [ho] at hfree1
    obtain ⟨w2, hd, hs, hV, hH, hnv, hnh, hah, hdh, hav, hdv⟩ :=
      Del_after_place_horiz w hI _ _ (w.calls + 3) hx0 hx hy0 hy
        (free_hspan w _ _ 1 (by decide) hx0 hx hfree1) ri prob2 probd size hp2 hidx2
    rw [ho]
    refine ⟨w2, hd, hs, hV, hH, hnv, hnh, ?_, fun _ => ⟨hah, hdh, hav, hdv⟩⟩
    intro h1
    exact absurd h1 (by decide)

/-- Witness of claim C19: the vertical rod added to `demo0` (giving `demo1`) is
deleted again by the index 0. -/
theorem C19_add_then_del_witness :
    ∃ w2, Del demo1 0 0 1 0 = some w2 ∧
      w2.s = demo0.s ∧ w2.m.VRodlist = demo0.m.VRodlist ∧ w2.m.HRodlist = demo0.m.HRodlist ∧
      w2.m.nv = demo0.m.nv ∧ w2.m.nh = demo0.m.nh ∧
      (cmod (0 : Nat) 2 = 0 →
        w2.m.av = demo0.m.av + 1 ∧ w2.m.dv = demo0.m.dv + 1 ∧ w2.m.ah = demo0.m.ah ∧
        w2.m.dh = demo0.m.dh) ∧
      (cmod (0 : Nat) 2 ≠ 0 →
        w2.m.ah = demo0.m.ah + 1 ∧ w2.m.dh = demo0.m.dh + 1 ∧ w2.m.av = demo0.m.av ∧
        w2.m.dv = demo0.m.dv) :=
  C19_add_then_del demo0 demo1 demo0_reachable 0 0 0 0 1 0 0 1 0 (by decide) (by decide)
    demo0_spanFree (by norm_num) rfl (by norm_num) rfl


theorem MCRUN_step_small_budget (rnd : Nat → Nat) (RAND_MAX : Nat) (w : World)
    (h : cdiv w.m.step 10000 = 0) : MCRUN_step rnd RAND_MAX w = none := by
  unfold MCRUN_step
  cases MCRUN_move rnd RAND_MAX w with
  | none => rfl
  | some w1 => simp [h]

theorem MCRUN_iter_small_budget (rnd : Nat → Nat) (RAND_MAX : Nat) (n : Nat) (w : World)
    (hn : 0 < n) (h : cdiv w.m.step 10000 = 0) : MCRUN_iter rnd RAND_MAX n w = none := by
  cases n with
  | zero => omega
  | succ k =>
    show (match MCRUN_step rnd RAND_MAX w with
      | none => none
      | some w1 => MCRUN_iter rnd RAND_MAX k w1) = none
    rw [MCRUN_step_small_budget rnd RAND_MAX w h]

/-- Claim C20 fails on the code: with the step budget 1 the divisor `step/10000`
of the sampling test is 0, so the first iteration of the `MCRUN` loop evaluates
a remainder by zero and `MCRUN` has no defined result, whatever `rand()`
returns; the same holds for the budget 9999. -/
theorem C20_small_budget_undefined (rnd : Nat → Nat) (RAND_MAX : Nat) :
    cdiv (MC.new 1 1 1 1 1).step 10000 = 0 ∧
    MCRUN rnd RAND_MAX (MC.new 1 1 1 1 1) = none ∧
    cdiv (MC.new 9999 1 1 1 1).step 10000 = 0 ∧
    MCRUN rnd RAND_MAX (MC.new 9999 1 1 1 1) = none := by
  have h1 : cdiv (MC.new 1 1 1 1 1).step 10000 = 0 := by decide
  have h2 : cdiv (MC.new 9999 1 1 1 1).step 10000 = 0 := by decide
  exact ⟨h1, MCRUN_iter_small_budget rnd RAND_MAX _ _ (by decide) h1,
    h2, MCRUN_iter_small_budget rnd RAND_MAX _ _ (by decide) h2⟩

end SUS2D
